import Mathlib

/-!
# PlantUML mindmap / OPML converter

A shallow embedding of `plantuml_opml_converter.go`.

* Go strings are byte sequences, so a string is a list of byte values and
  `line[level:]` is `List.drop`.
* The functions of package `strings` the program calls are modelled at the
  arguments the program passes (one-byte separators for `Split`, `Count` and
  `Repeat`).
* The parser keeps a stack of pointers into the tree under `rootOutline`.
  A pointer is modelled as the list of child indices that leads from
  `rootOutline` to the node it addresses; writing through a pointer rewrites
  the tree at that position. `append` may move the `Children` of a node to a
  new backing array; the node appended to is then the top of the stack (the
  stack is cut down to it first), so no pointer into the old array is kept.
* A run-time panic (index out of range, slice bounds out of range) is the
  result `none`.
* `main`, `loadOPML` and `saveOPML` run on a file system value and take the
  XML library as a parameter; for the XML round trip the library is modelled
  from the specification (section "The XML layer").
-/

namespace Converter

/-- A Go string: its bytes. -/
abbrev GoString := List Nat

/-- The UTF-8 encoding of one code point. -/
def utf8EncodeChar (c : Char) : List Nat :=
  let n := c.toNat
  if n < 0x80 then [n]
  else if n < 0x800 then [0xC0 + n / 64, 0x80 + n % 64]
  else if n < 0x10000 then [0xE0 + n / 4096, 0x80 + (n / 64) % 64, 0x80 + n % 64]
  else [0xF0 + n / 262144, 0x80 + (n / 4096) % 64, 0x80 + (n / 64) % 64, 0x80 + n % 64]

/-- The bytes of a string literal of the source (Go source text is UTF-8). -/
def bytes (s : String) : GoString :=
  s.toList.flatMap utf8EncodeChar

namespace strings

/-- Go `strings.HasPrefix(s, p)`. -/
def HasPrefix (s p : GoString) : Bool :=
  p.isPrefixOf s

/-- Go `strings.Contains(s, substr)`. -/
def Contains : GoString → GoString → Bool
  | [], substr => substr.isPrefixOf []
  | c :: s, substr => substr.isPrefixOf (c :: s) || Contains s substr

/-- Go `strings.Count(s, substr)` for a one-byte `substr`. -/
def Count (s : GoString) (b : Nat) : Nat :=
  s.count b

/-- Go `strings.Repeat(s, count)` for a one-byte `s`. -/
def Repeat (b : Nat) (count : Nat) : GoString :=
  List.replicate count b

/-- Go `strings.Split(s, sep)` for a one-byte `sep`: the pieces between the
separators, always at least one piece. -/
def Split : GoString → Nat → List GoString
  | [], _ => [[]]
  | c :: s, sep =>
    if c = sep then [] :: Split s sep
    else
      match Split s sep with
      | [] => [[c]]
      | piece :: pieces => (c :: piece) :: pieces

/-- The UTF-8 encodings of the runes for which Go `unicode.IsSpace` holds:
tab, LF, VT, FF, CR, space, U+0085, U+00A0, U+1680, U+2000..U+200A, U+2028,
U+2029, U+202F, U+205F, U+3000. -/
def spaceRunes : List GoString :=
  [[0x09], [0x0A], [0x0B], [0x0C], [0x0D], [0x20],
   [0xC2, 0x85], [0xC2, 0xA0], [0xE1, 0x9A, 0x80],
   [0xE2, 0x80, 0x80], [0xE2, 0x80, 0x81], [0xE2, 0x80, 0x82], [0xE2, 0x80, 0x83],
   [0xE2, 0x80, 0x84], [0xE2, 0x80, 0x85], [0xE2, 0x80, 0x86], [0xE2, 0x80, 0x87],
   [0xE2, 0x80, 0x88], [0xE2, 0x80, 0x89], [0xE2, 0x80, 0x8A],
   [0xE2, 0x80, 0xA8], [0xE2, 0x80, 0xA9], [0xE2, 0x80, 0xAF],
   [0xE2, 0x81, 0x9F], [0xE3, 0x80, 0x80]]

/-- Strip, at most `fuel` times, a leading member of `table` from `s`. -/
def trimWith (table : List GoString) : Nat → GoString → GoString
  | 0, s => s
  | fuel + 1, s =>
    match table.find? (fun r => r.isPrefixOf s) with
    | some r => trimWith table fuel (s.drop r.length)
    | none => s

/-- Go `strings.TrimLeftFunc(s, unicode.IsSpace)`: every leading white-space
rune removed. Each removal takes at least one byte, so `s.length` rounds
are enough. -/
def TrimLeftSpace (s : GoString) : GoString :=
  trimWith spaceRunes s.length s

/-- Go `strings.TrimRightFunc(s, unicode.IsSpace)`: every trailing white-space
rune removed. -/
def TrimRightSpace (s : GoString) : GoString :=
  (trimWith (spaceRunes.map List.reverse) s.length s.reverse).reverse

/-- Go `strings.TrimSpace(s)`. -/
def TrimSpace (s : GoString) : GoString :=
  TrimRightSpace (TrimLeftSpace s)

end strings

/-- Go `xml.Name`. -/
structure Name where
  Space : GoString
  Local : GoString
deriving DecidableEq, Repr

/-- The source type `Outline`. -/
inductive Outline where
  | mk (Text : GoString) (Children : List Outline)
deriving Repr

/-- The field `Text`. -/
def Outline.Text : Outline → GoString
  | .mk t _ => t

/-- The field `Children`. -/
def Outline.Children : Outline → List Outline
  | .mk _ ch => ch

mutual
/-- Decidable equality of outlines. -/
def Outline.decEq : (a b : Outline) → Decidable (a = b)
  | .mk t1 c1, .mk t2 c2 =>
    if ht : t1 = t2 then
      match Outline.decEqList c1 c2 with
      | isTrue hc => isTrue (by rw [ht, hc])
      | isFalse hc => isFalse (fun h => hc (by cases h; rfl))
    else isFalse (fun h => ht (by cases h; rfl))
/-- Decidable equality of lists of outlines. -/
def Outline.decEqList : (a b : List Outline) → Decidable (a = b)
  | [], [] => isTrue rfl
  | [], _ :: _ => isFalse (fun h => by cases h)
  | _ :: _, [] => isFalse (fun h => by cases h)
  | a :: as, b :: bs =>
    match Outline.decEq a b with
    | isTrue hab =>
      match Outline.decEqList as bs with
      | isTrue hr => isTrue (by rw [hab, hr])
      | isFalse hr => isFalse (fun h => hr (by cases h; rfl))
    | isFalse hab => isFalse (fun h => hab (by cases h; rfl))
end

instance : DecidableEq Outline := Outline.decEq

/-- The source type `Head`. -/
structure Head where
  Title : GoString
deriving DecidableEq, Repr

/-- The source type `Body`. -/
structure Body where
  Outline : List Outline
deriving DecidableEq, Repr

/-- The source type `OPML`. -/
structure OPML where
  XMLName : Name
  Version : GoString
  Head : Head
  Body : Body
deriving DecidableEq, Repr

/-- A `*Outline` that points into the tree under `rootOutline`: the child
indices leading from `rootOutline` to the node. -/
abbrev Ptr := List Nat

/-- The assignment `p.Children = append(p.Children, outline)` through the
pointer `p`, as a rewrite of the tree `root`. -/
def appendChild : Ptr → Outline → Outline → Outline
  | [], outline, .mk t ch => .mk t (ch ++ [outline])
  | i :: p, outline, .mk t ch => .mk t (ch.modify (appendChild p outline) i)

/-- The value of `len(p.Children)` read through the pointer `p`. -/
def lenChildren : Ptr → Outline → Nat
  | [], .mk _ ch => ch.length
  | i :: p, .mk _ ch =>
    match ch[i]? with
    | some c => lenChildren p c
    | none => 0

/-- The local variables of `plantUMLToOPML` that live across loop rounds. -/
structure ParseState where
  rootOutline : Outline
  stack : List Ptr
deriving DecidableEq, Repr

/-- Go `stack[i]` for an `int` index: `none` is the index-out-of-range panic. -/
def index (stack : List Ptr) (i : Int) : Option Ptr :=
  if i < 0 then none else stack[i.toNat]?

/-- The three statements shared by both branches of the placement:
`parent := stack[len(stack)-1]`, the append to `parent.Children`, and the
push of `&parent.Children[len(parent.Children)-1]`. -/
def attach (rootOutline : Outline) (stack : List Ptr) (outline : Outline) :
    Option ParseState :=
  match index stack ((stack.length : Int) - 1) with
  | none => none
  | some parent =>
    let root := appendChild parent outline rootOutline
    some ⟨root, stack ++ [parent ++ [lenChildren parent root - 1]]⟩

/-- One round of the `for _, line := range lines` loop of `plantUMLToOPML`. -/
def loopBody (st : ParseState) (line : GoString) : Option ParseState :=
  let line := strings.TrimSpace line
  if line = [] ∨ strings.HasPrefix line (bytes "@start") = true
      ∨ strings.HasPrefix line (bytes "@end") = true then
    some st
  else
    let level := strings.Count line 42
    if level > line.length then none
    else
      let title := strings.TrimSpace (line.drop level)
      let outline := Outline.mk title []
      if (level : Int) > (st.stack.length : Int) - 1 then
        attach st.rootOutline st.stack outline
      else
        attach st.rootOutline (st.stack.take level) outline

/-- The `for` loop of `plantUMLToOPML` over the lines. -/
def loop : List GoString → ParseState → Option ParseState
  | [], st => some st
  | line :: lines, st =>
    match loopBody st line with
    | none => none
    | some st1 => loop lines st1

/-- The source function `plantUMLToOPML`; `none` when it panics. -/
def plantUMLToOPML (plantUML : GoString) : Option OPML :=
  let lines := strings.Split plantUML 10
  match loop lines ⟨Outline.mk [] [], [[]]⟩ with
  | none => none
  | some st =>
    some ⟨⟨[], []⟩, bytes "2.0", ⟨bytes "Converted Mindmap"⟩, ⟨st.rootOutline.Children⟩⟩

mutual
/-- The closure `traverse` of `opmlToPlantUML`: the bytes it writes to the
builder. -/
def traverse : Outline → Nat → GoString
  | .mk text children, level =>
    strings.Repeat 42 level ++ bytes " " ++ text ++ bytes "\n"
      ++ traverseChildren children (level + 1)
/-- The loop `for _, child := range outline.Children` of `traverse`. -/
def traverseChildren : List Outline → Nat → GoString
  | [], _ => []
  | child :: children, level => traverse child level ++ traverseChildren children level
end

/-- The source function `opmlToPlantUML`. -/
def opmlToPlantUML (opml : OPML) : GoString :=
  bytes "@startmindmap\n" ++ traverseChildren opml.Body.Outline 1 ++ bytes "@endmindmap"

/-- The source function `detectFileType`. -/
def detectFileType (content : GoString) : GoString :=
  if strings.HasPrefix (strings.TrimSpace content) (bytes "@startmindmap") = true then
    bytes "plantuml"
  else if strings.Contains content (bytes "<opml") = true then
    bytes "opml"
  else
    bytes "unknown"

/-! ## Specification-side definitions -/

/-- The path from the root to the node reached by following the last child
`k` times. -/
def lastPath : Nat → Outline → Ptr
  | 0, _ => []
  | k + 1, .mk _ ch =>
    match ch.getLast? with
    | some c => (ch.length - 1) :: lastPath k c
    | none => []

/-- The tree `root` with the outlines `G` appended to the children of the node
reached by following the last child `k` times. -/
def graft : Nat → List Outline → Outline → Outline
  | 0, G, .mk t ch => .mk t (ch ++ G)
  | k + 1, G, .mk t ch =>
    match ch.getLast? with
    | some c => .mk t (ch.dropLast ++ [graft k G c])
    | none => .mk t ch

/-- The last child can be followed `k` times from the root. -/
def Spine : Nat → Outline → Prop
  | 0, _ => True
  | k + 1, .mk _ ch => ∃ c, ch.getLast? = some c ∧ Spine k c

/-- The loop invariant of `plantUMLToOPML`: the stack holds the pointers to
the nodes on the path of last children, from the root down to depth `d`. -/
def Inv (st : ParseState) (d : Nat) : Prop :=
  st.stack = (List.range (d + 1)).map (fun i => lastPath i st.rootOutline)
    ∧ Spine d st.rootOutline

/-- The trimmed line of a loop round that reaches the placement code, `none`
for a line the loop skips. -/
def contentLine (raw : GoString) : Option GoString :=
  let line := strings.TrimSpace raw
  if line = [] ∨ strings.HasPrefix line (bytes "@start") = true
      ∨ strings.HasPrefix line (bytes "@end") = true then none
  else some line

/-- The content lines of an input, trimmed, in input order. -/
def contentLines (plantUML : GoString) : List GoString :=
  (strings.Split plantUML 10).filterMap contentLine

/-- The value of `level` computed for a content line. -/
def levelOf (line : GoString) : Nat :=
  strings.Count line 42

/-- The value of `title` computed for a content line. -/
def titleOf (line : GoString) : GoString :=
  strings.TrimSpace (line.drop (levelOf line))

/-- The marker count of a line as the specification reads it: the number of
`*` at the start of the line. -/
def leadingMarkers (line : GoString) : Nat :=
  (line.takeWhile (fun b => b == 42)).length

/-- Placement of one node, on the tree and the depth of the node placed
before: a node of level `level` goes to depth `min level (d + 1)`, as the
new last child of the node at the depth above on the path of last children. -/
def place (st : Outline × Nat) (item : Nat × GoString) : Option (Outline × Nat) :=
  if item.1 = 0 then none
  else
    some (graft (min item.1 (st.2 + 1) - 1) [.mk item.2 []] st.1, min item.1 (st.2 + 1))

/-- Placement of a sequence of nodes. -/
def placeAll : List (Nat × GoString) → Outline × Nat → Option (Outline × Nat)
  | [], st => some st
  | item :: items, st =>
    match place st item with
    | none => none
    | some st1 => placeAll items st1

mutual
/-- Pre-order listing of a tree: depth and label of every node. -/
def preorder : Outline → Nat → List (Nat × GoString)
  | .mk t ch, d => (d, t) :: preorderList ch (d + 1)
/-- Pre-order listing of a forest. -/
def preorderList : List Outline → Nat → List (Nat × GoString)
  | [], _ => []
  | c :: cs, d => preorder c d ++ preorderList cs d
end

/-- The depths `d_i = min (L_i, d_(i-1) + 1)` of the placement rule, for the
levels `L_i` and the depth `d` of the node placed before. -/
def depths : Nat → List Nat → List Nat
  | _, [] => []
  | d, l :: ls => min l (d + 1) :: depths (min l (d + 1)) ls

/-- The line `opmlToPlantUML` writes for a node of depth `d` and label `t`. -/
def nodeLine (item : Nat × GoString) : GoString :=
  strings.Repeat 42 item.1 ++ bytes " " ++ item.2 ++ bytes "\n"

/-- Level and title of every content line of an input, in input order. -/
def items (plantUML : GoString) : List (Nat × GoString) :=
  (contentLines plantUML).map (fun line => (levelOf line, titleOf line))

/-- The document `plantUMLToOPML` returns for the final tree. -/
def document (rootOutline : Outline) : OPML :=
  ⟨⟨[], []⟩, bytes "2.0", ⟨bytes "Converted Mindmap"⟩, ⟨rootOutline.Children⟩⟩

/-- No member of `table` is a leading part of `s`. -/
def NoLead (table : List GoString) (s : GoString) : Prop :=
  ∀ r ∈ table, ¬ r <+: s

/-- A string that `strings.TrimSpace` leaves as it is. -/
def Trimmed (s : GoString) : Prop :=
  strings.TrimSpace s = s

/-- The text of a marker line without its line end: `k` markers, one blank,
the label. -/
def lineText (item : Nat × GoString) : GoString :=
  List.replicate item.1 42 ++ 32 :: item.2

/-- The marker text with one line per item between the two delimiter lines,
no line end after the end delimiter. -/
def markerText (its : List (Nat × GoString)) : GoString :=
  bytes "@startmindmap\n" ++ (its.map nodeLine).flatten ++ bytes "@endmindmap"

mutual
/-- Number of nodes of a tree. -/
def Outline.size : Outline → Nat
  | .mk _ ch => 1 + sizeList ch
/-- Number of nodes of a forest. -/
def sizeList : List Outline → Nat
  | [] => 0
  | c :: cs => c.size + sizeList cs
end

mutual
/-- Pre-order listing of a tree with, for every node, its depth, the pre-order
index of its parent (`none` for a top-level node, whose parent is the
synthetic root) and its label. The listing of `o` starts at index `n`; `p` is
the parent of `o` and `d` its depth. -/
def nodes : Outline → Nat → Option Nat → Nat → List (Nat × Option Nat × GoString)
  | .mk t ch, n, p, d => (d, p, t) :: nodesList ch (n + 1) (some n) (d + 1)
/-- Pre-order listing of a forest with depths and parent indices; children
are listed in stored order. -/
def nodesList : List Outline → Nat → Option Nat → Nat → List (Nat × Option Nat × GoString)
  | [], _, _, _ => []
  | c :: cs, n, p, d => nodes c n p d ++ nodesList cs (n + c.size) p d
end

/-- The index of the most recent earlier node at depth `target`; `prev` holds
the depths of the earlier nodes, the most recent first. -/
def recent : List Nat → Nat → Option Nat
  | [], _ => none
  | x :: prev, target => if x = target then some prev.length else recent prev target

/-- The placement the rule prescribes for nodes given by depth and label in
input order: every node with its depth, the index of the most recent earlier
node one level up (`none`, the synthetic root, when there is no such node)
and its label. -/
def annotate : List Nat → List (Nat × GoString) → List (Nat × Option Nat × GoString)
  | _, [] => []
  | prev, (d, t) :: rest => (d, recent prev (d - 1), t) :: annotate (d :: prev) rest

/-- The labels of a forest, in pre-order. -/
def labels (F : List Outline) : List GoString :=
  (preorderList F 1).map Prod.snd

/-- Marker counts without depth gap: at least one marker, and at most one
more than the item before (`d` is the count of the item before, 0 at the
start). -/
def NoGap : Nat → List Nat → Prop
  | _, [] => True
  | d, k :: ks => 1 ≤ k ∧ k ≤ d + 1 ∧ NoGap k ks

/-- The lines joined by single line ends (Go `strings.Join(lines, "\n")`). -/
def joinLines : List GoString → GoString
  | [] => []
  | [l] => l
  | l :: l1 :: ls => l ++ 10 :: joinLines (l1 :: ls)

/-- The input with every line trimmed and every line deleted that is then
empty or begins with `@start` or `@end`. -/
def normalize (plantUML : GoString) : GoString :=
  joinLines (contentLines plantUML)

/-! ## The command-line program -/

namespace strings

/-- Go `strings.HasSuffix(s, suffix)`. -/
def HasSuffix (s suffix : GoString) : Bool :=
  suffix.isSuffixOf s

/-- Go `strings.TrimSuffix(s, suffix)`. -/
def TrimSuffix (s suffix : GoString) : GoString :=
  if HasSuffix s suffix = true then s.take (s.length - suffix.length) else s

end strings

/-- A Go `error` value, by its message. -/
abbrev Error := GoString

/-- The file system as the program sees it: `read path` is the content of the
file at `path` or the error of opening or reading it, `create path` is the
error of creating or truncating the file at `path` for writing, `none` when
that succeeds. -/
structure FileSystem where
  read : GoString → Except Error GoString
  create : GoString → Option Error

/-- The file system after `data` has been written to the file at `path`. -/
def FileSystem.write (fs : FileSystem) (path data : GoString) : FileSystem :=
  ⟨fun p => if p = path then Except.ok data else fs.read p, fs.create⟩

/-- The zero value `OPML{}`. -/
def zeroOPML : OPML :=
  ⟨⟨[], []⟩, [], ⟨[]⟩, ⟨[]⟩⟩

/-- The source function `loadOPML`. The XML library is a parameter:
`xmlDecode content` is the value `xml.NewDecoder(file).Decode(&opml)` leaves
in `opml` for a file of that content, and the error it returns. -/
def loadOPML (xmlDecode : GoString → OPML × Option Error) (fs : FileSystem)
    (filename : GoString) : OPML × Option Error :=
  match fs.read filename with
  | .error err => (zeroOPML, some err)
  | .ok content =>
    match xmlDecode content with
    | (_, some err) => (zeroOPML, some err)
    | (opml, none) => (opml, none)

/-- The source function `saveOPML`: the file system afterwards and the error
returned. The XML library is a parameter: `xmlEncode opml` is the text the
indenting encoder writes for `opml`, and the error of `Encode`. -/
def saveOPML (xmlEncode : OPML → GoString × Option Error) (fs : FileSystem)
    (filename : GoString) (opml : OPML) : FileSystem × Option Error :=
  match fs.create filename with
  | some err => (fs, some err)
  | none =>
    match xmlEncode opml with
    | (written, some err) => (fs.write filename written, some err)
    | (written, none) => (fs.write filename written, none)

/-- Go `ioutil.WriteFile(filename, data, 0644)`. -/
def WriteFile (fs : FileSystem) (filename data : GoString) : FileSystem × Option Error :=
  match fs.create filename with
  | some err => (fs, some err)
  | none => (fs.write filename data, none)

/-- The line Go `fmt.Println` prints for its operands: the operands separated
by blanks, then a line end. -/
def Println : List GoString → GoString
  | [] => [10]
  | [a] => a ++ [10]
  | a :: b :: rest => a ++ 32 :: Println (b :: rest)

/-- What a run of the program leaves: the file system, the lines printed, and
whether the run ended in a panic. -/
structure Outcome where
  fs : FileSystem
  stdout : List GoString
  panicked : Bool

/-- The source function `main`, for the arguments `args` (`os.Args`) and the
file system `fs`. The XML library is a parameter, and so is the callee
`opmlToPlantUML`, as `toPlantUML`. -/
def mainWith (toPlantUML : OPML → GoString) (xmlEncode : OPML → GoString × Option Error)
    (xmlDecode : GoString → OPML × Option Error) (args : List GoString) (fs : FileSystem) :
    Outcome :=
  if args.length < 2 then
    ⟨fs, [Println [bytes "Usage: converter <filename>"]], false⟩
  else
    let inputFile := args.getD 1 []
    match fs.read inputFile with
    | .error err => ⟨fs, [Println [bytes "Error reading file:", err]], false⟩
    | .ok content =>
      let fileType := detectFileType content
      if fileType = bytes "plantuml" then
        match plantUMLToOPML content with
        | none => ⟨fs, [], true⟩
        | some opml =>
          let outputFile := strings.TrimSuffix inputFile (bytes ".plantuml") ++ bytes ".opml"
          match saveOPML xmlEncode fs outputFile opml with
          | (fs1, some err) => ⟨fs1, [Println [bytes "Error saving OPML file:", err]], false⟩
          | (fs1, none) => ⟨fs1, [Println [bytes "Converted PlantUML to OPML:", outputFile]], false⟩
      else if fileType = bytes "opml" then
        match loadOPML xmlDecode fs inputFile with
        | (_, some err) => ⟨fs, [Println [bytes "Error loading OPML file:", err]], false⟩
        | (opml, none) =>
          let plantUML := toPlantUML opml
          let outputFile := strings.TrimSuffix inputFile (bytes ".opml") ++ bytes ".plantuml"
          match WriteFile fs outputFile plantUML with
          | (fs1, some err) => ⟨fs1, [Println [bytes "Error saving PlantUML file:", err]], false⟩
          | (fs1, none) => ⟨fs1, [Println [bytes "Converted OPML to PlantUML:", outputFile]], false⟩
      else
        ⟨fs, [Println [bytes "Unknown file type."]], false⟩

/-- The source function `main`. -/
def main (xmlEncode : OPML → GoString × Option Error)
    (xmlDecode : GoString → OPML × Option Error) (args : List GoString) (fs : FileSystem) :
    Outcome :=
  mainWith opmlToPlantUML xmlEncode xmlDecode args fs

/-! ## The XML layer

`saveOPML` and `loadOPML` hand the document to Go's package `encoding/xml`,
which is not part of the repository. The layer is modelled here from the
specification (4.3, 4.4, 6) and the struct tags of the source: elements,
attributes, character data, the escapes of the encoder and the indentation.
Comments, processing instructions, CDATA sections, directives and name spaces
are outside the model: the decoder of the model rejects them. -/

namespace xml

/-- Modelled from the spec: the rune and the width Go `utf8.DecodeRune`
finds at the head of `s`; an ill-formed encoding is the rune U+FFFD of width
1. Used by the encoder to escape the text it writes (spec 4.3). -/
def decodeRune : GoString → Nat × Nat
  | [] => (0xFFFD, 0)
  | p0 :: rest =>
    if p0 < 0x80 then (p0, 1)
    else if p0 < 0xC2 ∨ 0xF4 < p0 then (0xFFFD, 1)
    else
      let lo := if p0 = 0xE0 then 0xA0 else if p0 = 0xF0 then 0x90 else 0x80
      let hi := if p0 = 0xED then 0x9F else if p0 = 0xF4 then 0x8F else 0xBF
      match rest with
      | [] => (0xFFFD, 1)
      | b1 :: rest1 =>
        if b1 < lo ∨ hi < b1 then (0xFFFD, 1)
        else if p0 < 0xE0 then ((p0 - 0xC0) * 64 + (b1 - 0x80), 2)
        else
          match rest1 with
          | [] => (0xFFFD, 1)
          | b2 :: rest2 =>
            if b2 < 0x80 ∨ 0xBF < b2 then (0xFFFD, 1)
            else if p0 < 0xF0 then
              ((p0 - 0xE0) * 4096 + (b1 - 0x80) * 64 + (b2 - 0x80), 3)
            else
              match rest2 with
              | [] => (0xFFFD, 1)
              | b3 :: _ =>
                if b3 < 0x80 ∨ 0xBF < b3 then (0xFFFD, 1)
                else
                  ((p0 - 0xF0) * 262144 + (b1 - 0x80) * 4096 + (b2 - 0x80) * 64
                    + (b3 - 0x80), 4)

/-- Modelled from the spec: the code points XML allows in a document (the
"XML-safe alphabet" of spec 8): tab, line feed, carriage return, U+0020 to
U+D7FF, U+E000 to U+FFFD, U+10000 to U+10FFFF. -/
def isInCharacterRange (r : Nat) : Bool :=
  r = 0x09 || r = 0x0A || r = 0x0D || (0x20 ≤ r && r ≤ 0xD7FF)
    || (0xE000 ≤ r && r ≤ 0xFFFD) || (0x10000 ≤ r && r ≤ 0x10FFFF)

/-- Modelled from the spec: the first rune of `s` can be written to XML as it
is or escaped: it is well-formed UTF-8 and in the character range. -/
def runeOk (s : GoString) : Bool :=
  isInCharacterRange (decodeRune s).1 && !((decodeRune s).1 = 0xFFFD && (decodeRune s).2 = 1)

/-- Modelled from the spec: what the encoder writes for the first rune of `s`
(spec 4.3, escaping of `&`, `<`, `>`, `"` at minimum; the encoder of Go also
escapes the apostrophe, tab, line feed and carriage return, and writes U+FFFD
for a rune XML cannot hold). -/
def escapeRune (s : GoString) : GoString :=
  let r := (decodeRune s).1
  if r = 34 then bytes "&#34;"
  else if r = 39 then bytes "&#39;"
  else if r = 38 then bytes "&amp;"
  else if r = 60 then bytes "&lt;"
  else if r = 62 then bytes "&gt;"
  else if r = 9 then bytes "&#x9;"
  else if r = 10 then bytes "&#xA;"
  else if r = 13 then bytes "&#xD;"
  else if runeOk s = true then s.take (decodeRune s).2
  else [0xEF, 0xBF, 0xBD]

/-- Modelled from the spec: the escaped form of a text, rune by rune; `fuel`
bounds the number of runes. -/
def escapeFuel : Nat → GoString → GoString
  | 0, _ => []
  | _ + 1, [] => []
  | fuel + 1, b :: s =>
    escapeRune (b :: s) ++ escapeFuel fuel ((b :: s).drop (decodeRune (b :: s)).2)

/-- Modelled from the spec: Go `xml.EscapeText`, the escaping the encoder
applies to attribute values and character data. -/
def EscapeText (s : GoString) : GoString :=
  escapeFuel s.length s

/-- Modelled from the spec: every rune of the text is well-formed and in the
character range of XML; `fuel` bounds the number of runes. -/
def representableFuel : Nat → GoString → Bool
  | 0, _ => true
  | _ + 1, [] => true
  | fuel + 1, b :: s =>
    runeOk (b :: s) && representableFuel fuel ((b :: s).drop (decodeRune (b :: s)).2)

/-- Modelled from the spec: an XML-representable string, a label "drawn from
the XML-safe-after-escaping alphabet" (spec 8). -/
def Representable (s : GoString) : Prop :=
  representableFuel s.length s = true

/-- Modelled from the spec: line end and two blanks per nesting level, the
indentation the encoder writes in front of a nested element. -/
def newline (depth : Nat) : GoString :=
  10 :: List.replicate (2 * depth) 32

/-- Modelled from the spec: the indentation in front of the end tag of an
element at `depth`: none when the element has no nested element. -/
def closing (children : List Outline) (depth : Nat) : GoString :=
  match children with
  | [] => []
  | _ :: _ => newline depth

mutual
/-- Modelled from the spec: the encoding of a node (spec 4.3): an element
`outline` with the label as the attribute `text` and the children as nested
elements in order, each on a line of its own. -/
def encodeOutline : Outline → Nat → GoString
  | .mk text children, depth =>
    bytes "<outline text=\"" ++ EscapeText text ++ bytes "\">"
      ++ encodeOutlines children (depth + 1)
      ++ closing children depth
      ++ bytes "</outline>"
/-- Modelled from the spec: the encoding of a sequence of nodes, every node
after a line end and the indentation of its depth. -/
def encodeOutlines : List Outline → Nat → GoString
  | [], _ => []
  | child :: children, depth =>
    newline depth ++ encodeOutline child depth ++ encodeOutlines children depth
end

/-- Modelled from the spec: the indented XML document the encoder writes for
an `OPML` value (spec 4.3 and 6, element and attribute names from the struct
tags): the element `opml` with the attribute `version`, the element `head`
with the title, the element `body` with the outlines. -/
def encodeOPML (opml : OPML) : GoString :=
  bytes "<opml version=\"" ++ EscapeText opml.Version ++ bytes "\">"
    ++ newline 1 ++ bytes "<head>"
    ++ newline 2 ++ bytes "<title>" ++ EscapeText opml.Head.Title ++ bytes "</title>"
    ++ newline 1 ++ bytes "</head>"
    ++ newline 1 ++ bytes "<body>"
    ++ encodeOutlines opml.Body.Outline 2
    ++ closing opml.Body.Outline 1
    ++ bytes "</body>"
    ++ newline 0 ++ bytes "</opml>"

/-- Modelled from the spec: a parsed XML element or a piece of character
data. -/
inductive Node where
  | text (data : GoString)
  | elem (name : GoString) (attrs : List (GoString × GoString)) (children : List Node)

/-- Modelled from the spec: a byte of an element or attribute name. -/
def isNameByte (b : Nat) : Bool :=
  (65 ≤ b && b ≤ 90) || (97 ≤ b && b ≤ 122) || (48 ≤ b && b ≤ 57)
    || b = 95 || b = 58 || b = 46 || b = 45 || 128 ≤ b

/-- Modelled from the spec: white space inside a tag. -/
def isSpaceByte (b : Nat) : Bool :=
  b = 32 || b = 13 || b = 10 || b = 9

/-- Modelled from the spec: the value of a run of decimal digits. -/
def parseDec : Nat → GoString → Option Nat
  | acc, [] => some acc
  | acc, b :: s => if 48 ≤ b ∧ b ≤ 57 then parseDec (acc * 10 + (b - 48)) s else none

/-- Modelled from the spec: the value of a run of hexadecimal digits. -/
def parseHex : Nat → GoString → Option Nat
  | acc, [] => some acc
  | acc, b :: s =>
    if 48 ≤ b ∧ b ≤ 57 then parseHex (acc * 16 + (b - 48)) s
    else if 97 ≤ b ∧ b ≤ 102 then parseHex (acc * 16 + (b - 87)) s
    else if 65 ≤ b ∧ b ≤ 70 then parseHex (acc * 16 + (b - 55)) s
    else none

/-- Modelled from the spec: the UTF-8 encoding of a code point. -/
def encodeRune (n : Nat) : GoString :=
  if n < 0x80 then [n]
  else if n < 0x800 then [0xC0 + n / 64, 0x80 + n % 64]
  else if n < 0x10000 then [0xE0 + n / 4096, 0x80 + (n / 64) % 64, 0x80 + n % 64]
  else [0xF0 + n / 262144, 0x80 + (n / 4096) % 64, 0x80 + (n / 64) % 64, 0x80 + n % 64]

/-- Modelled from the spec: the text a character reference stands for. -/
def charRef : Option Nat → Option GoString
  | none => none
  | some n =>
    if 0xD800 ≤ n ∧ n ≤ 0xDFFF then some [0xEF, 0xBF, 0xBD]
    else if isInCharacterRange n = true then some (encodeRune n)
    else none

/-- Modelled from the spec: the text the reference `&name;` stands for, `none`
for an unknown entity (spec 4.4, "already un-escaped by the XML layer"). -/
def entityValue (name : GoString) : Option GoString :=
  if name = bytes "lt" then some [60]
  else if name = bytes "gt" then some [62]
  else if name = bytes "amp" then some [38]
  else if name = bytes "apos" then some [39]
  else if name = bytes "quot" then some [34]
  else
    match name with
    | 35 :: 120 :: d :: digits => charRef (parseHex 0 (d :: digits))
    | 35 :: d :: digits => charRef (parseDec 0 (d :: digits))
    | _ => none

/-- Modelled from the spec: the text of an attribute value or of character
data with its references replaced; the first argument is the name of the
reference being read, in reverse, `none` outside a reference. -/
def unescape : Option GoString → GoString → Option GoString
  | none, [] => some []
  | some _, [] => none
  | none, b :: s =>
    if b = 38 then unescape (some []) s
    else (unescape none s).map (fun v => b :: v)
  | some name, b :: s =>
    if b = 59 then
      match entityValue name.reverse with
      | none => none
      | some v => (unescape none s).map (fun w => v ++ w)
    else unescape (some (b :: name)) s

/-- Modelled from the spec: the attributes of a start tag, whether the tag is
self-closing, and the input after the tag; `none` for a malformed tag. -/
def parseAttrs : Nat → GoString → Option (List (GoString × GoString) × Bool × GoString)
  | 0, _ => none
  | fuel + 1, s =>
    match s.dropWhile isSpaceByte with
    | [] => none
    | b :: s1 =>
      if b = 62 then some ([], false, s1)
      else if b = 47 then
        match s1 with
        | 62 :: s2 => some ([], true, s2)
        | _ => none
      else
        let name := (b :: s1).takeWhile isNameByte
        if name = [] then none
        else
          match ((b :: s1).dropWhile isNameByte).dropWhile isSpaceByte with
          | [] => none
          | e :: s2 =>
            if e = 61 then
              match s2.dropWhile isSpaceByte with
              | [] => none
              | q :: s3 =>
                if q = 34 ∨ q = 39 then
                  match s3.dropWhile (fun c => c != q) with
                  | [] => none
                  | _ :: s4 =>
                    if 60 ∈ s3.takeWhile (fun c => c != q) then none
                    else
                      match unescape none (s3.takeWhile (fun c => c != q)) with
                      | none => none
                      | some v =>
                        match parseAttrs fuel s4 with
                        | none => none
                        | some (attrs, closed, rest) => some ((name, v) :: attrs, closed, rest)
                else none
            else none

mutual
/-- Modelled from the spec: the element whose start tag begins at `s`, after
its `<`, and the input after its end tag; `none` for malformed XML (spec 4.4,
7: unbalanced tags). -/
def parseElement : Nat → GoString → Option (Node × GoString)
  | 0, _ => none
  | fuel + 1, s =>
    if s.takeWhile isNameByte = [] then none
    else
      match parseAttrs s.length (s.dropWhile isNameByte) with
      | none => none
      | some (attrs, true, rest) => some (.elem (s.takeWhile isNameByte) attrs [], rest)
      | some (attrs, false, rest) =>
        match parseContent fuel (s.takeWhile isNameByte) rest with
        | none => none
        | some (children, rest1) => some (.elem (s.takeWhile isNameByte) attrs children, rest1)
/-- Modelled from the spec: the content of the element `name` up to its end
tag, and the input after the end tag. -/
def parseContent : Nat → GoString → GoString → Option (List Node × GoString)
  | 0, _, _ => none
  | fuel + 1, name, s =>
    match s with
    | [] => none
    | b :: s1 =>
      if b = 60 then
        match s1 with
        | [] => none
        | c :: s2 =>
          if c = 47 then
            if s2.takeWhile isNameByte = name then
              match (s2.dropWhile isNameByte).dropWhile isSpaceByte with
              | [] => none
              | g :: rest => if g = 62 then some ([], rest) else none
            else none
          else
            match parseElement fuel (c :: s2) with
            | none => none
            | some (x, s3) =>
              match parseContent fuel name s3 with
              | none => none
              | some (xs, rest) => some (x :: xs, rest)
      else
        match unescape none ((b :: s1).takeWhile (fun c => c != 60)) with
        | none => none
        | some t =>
          match parseContent fuel name ((b :: s1).dropWhile (fun c => c != 60)) with
          | none => none
          | some (xs, rest) => some (.text t :: xs, rest)
end

/-- Modelled from the spec: the value of the attribute `name`, the empty
string when the attribute is missing (spec 4.4), the last one when it is
repeated. -/
def attr (name : GoString) (attrs : List (GoString × GoString)) : GoString :=
  attrs.foldl (fun value p => if p.1 = name then p.2 else value) []

mutual
/-- Modelled from the spec: the node of an element `outline`: the attribute
`text` is the label, the nested elements `outline` are the children in
document order; any other content is ignored (spec 4.4). -/
def toOutline : Node → Option Outline
  | .text _ => none
  | .elem name attrs children =>
    if name = bytes "outline" then some (.mk (attr (bytes "text") attrs) (toOutlines children))
    else none
/-- Modelled from the spec: the nodes of the elements `outline` among the
content of an element. -/
def toOutlines : List Node → List Outline
  | [] => []
  | x :: rest =>
    match toOutline x with
    | some o => o :: toOutlines rest
    | none => toOutlines rest
end

/-- Modelled from the spec: the character data directly inside an element. -/
def textOf : List Node → GoString
  | [] => []
  | .text data :: rest => data ++ textOf rest
  | .elem _ _ _ :: rest => textOf rest

/-- Modelled from the spec: the title found in the content of the elements
`head`, starting from `title`; a later `title` replaces an earlier one. -/
def headTitle (title : GoString) : List Node → GoString
  | [] => title
  | .elem name _ children :: rest =>
    if name = bytes "title" then headTitle (textOf children) rest else headTitle title rest
  | .text _ :: rest => headTitle title rest

/-- Modelled from the spec: the fields of the document filled from the
content of the element `opml`: every `head` sets the title, every `body`
appends its outlines; other content is ignored (spec 4.4). -/
def fillOPML (opml : OPML) : List Node → OPML
  | [] => opml
  | .elem name _ children :: rest =>
    if name = bytes "head" then
      fillOPML { opml with Head := ⟨headTitle opml.Head.Title children⟩ } rest
    else if name = bytes "body" then
      fillOPML { opml with Body := ⟨opml.Body.Outline ++ toOutlines children⟩ } rest
    else fillOPML opml rest
  | .text _ :: rest => fillOPML opml rest

/-- Modelled from the spec: the document read from an XML text (spec 4.4):
the first element must be `opml`; `none` for malformed XML. -/
def decodeOPML (content : GoString) : Option OPML :=
  match content.dropWhile (fun c => c != 60) with
  | [] => none
  | _ :: s =>
    match parseElement s.length s with
    | some (.elem name attrs children, _) =>
      if name = bytes "opml" then
        some (fillOPML ⟨⟨[], name⟩, attr (bytes "version") attrs, ⟨[]⟩, ⟨[]⟩⟩ children)
      else none
    | _ => none

end xml

/-- Modelled from the spec: the indenting encoder of `saveOPML`, which writes
the document and does not fail. -/
def xmlEncode (opml : OPML) : GoString × Option Error :=
  (xml.encodeOPML opml, none)

/-- Modelled from the spec: the decoder of `loadOPML`; malformed XML is an
error (spec 7, `MalformedDocument`). -/
def xmlDecode (content : GoString) : OPML × Option Error :=
  match xml.decodeOPML content with
  | some opml => (opml, none)
  | none => (zeroOPML, some (bytes "XML syntax error"))

/-! ## Lemmas -/

/-! ### The tree under the pointer stack -/

theorem modify_length_concat (f : Outline → Outline) (init : List Outline) (c : Outline) :
    (init ++ [c]).modify f init.length = init ++ [f c] := by
  induction init with
  | nil => rfl
  | cons a init ih => simp [List.modify_succ_cons, ih]

theorem getLast?_eq_some_concat {ch : List Outline} {c : Outline}
    (h : ch.getLast? = some c) : ∃ init, ch = init ++ [c] := by
  rcases List.eq_nil_or_concat ch with rfl | ⟨init, b, rfl⟩
  · simp at h
  · refine ⟨init, ?_⟩
    have hbc : b = c := by simpa using h
    simp [hbc]

theorem spine_succ {k : Nat} {t : GoString} {ch : List Outline}
    (h : Spine (k + 1) (.mk t ch)) : ∃ init c, ch = init ++ [c] ∧ Spine k c := by
  obtain ⟨c, hc, hs⟩ := h
  obtain ⟨init, rfl⟩ := getLast?_eq_some_concat hc
  exact ⟨init, c, rfl, hs⟩

theorem spine_concat {k : Nat} {t : GoString} {init : List Outline} {c : Outline} :
    Spine (k + 1) (.mk t (init ++ [c])) ↔ Spine k c := by
  simp [Spine]

theorem lastPath_concat (k : Nat) (t : GoString) (init : List Outline) (c : Outline) :
    lastPath (k + 1) (.mk t (init ++ [c])) = init.length :: lastPath k c := by
  simp [lastPath]

theorem graft_concat (k : Nat) (G : List Outline) (t : GoString) (init : List Outline)
    (c : Outline) :
    graft (k + 1) G (.mk t (init ++ [c])) = .mk t (init ++ [graft k G c]) := by
  simp [graft]

theorem spine_mono : ∀ (k : Nat) (root : Outline), Spine k root → ∀ i, i ≤ k → Spine i root
  | _, _, _, 0, _ => by cases ‹Outline›; trivial
  | 0, _, _, i + 1, hi => by omega
  | k + 1, .mk t ch, h, i + 1, hi => by
    obtain ⟨init, c, rfl, hs⟩ := spine_succ h
    exact spine_concat.2 (spine_mono k c hs i (by omega))

theorem appendChild_lastPath (o : Outline) :
    ∀ (k : Nat) (root : Outline), Spine k root →
      appendChild (lastPath k root) o root = graft k [o] root
  | 0, .mk t ch, _ => by simp [lastPath, appendChild, graft]
  | k + 1, .mk t ch, h => by
    obtain ⟨init, c, rfl, hs⟩ := spine_succ h
    rw [lastPath_concat, graft_concat, appendChild, modify_length_concat,
      appendChild_lastPath o k c hs]

theorem lastPath_graft_new (o : Outline) :
    ∀ (k : Nat) (root : Outline), Spine k root →
      lastPath k root ++ [lenChildren (lastPath k root) (graft k [o] root) - 1]
        = lastPath (k + 1) (graft k [o] root)
  | 0, .mk t ch, _ => by simp [lastPath, lenChildren, graft]
  | k + 1, .mk t ch, h => by
    obtain ⟨init, c, rfl, hs⟩ := spine_succ h
    have ih := lastPath_graft_new o k c hs
    rw [lastPath_concat, graft_concat, lastPath_concat, ← ih]
    simp [lenChildren]

theorem lastPath_graft_old (G : List Outline) :
    ∀ (k : Nat) (root : Outline), Spine k root → ∀ i, i ≤ k →
      lastPath i (graft k G root) = lastPath i root
  | _, _, _, 0, _ => by simp [lastPath]
  | 0, _, _, i + 1, hi => by omega
  | k + 1, .mk t ch, h, i + 1, hi => by
    obtain ⟨init, c, rfl, hs⟩ := spine_succ h
    rw [graft_concat, lastPath_concat, lastPath_concat,
      lastPath_graft_old G k c hs i (by omega)]

theorem spine_graft (o : Outline) :
    ∀ (k : Nat) (root : Outline), Spine k root → Spine (k + 1) (graft k [o] root)
  | 0, .mk t ch, _ => by simp [graft, Spine]
  | k + 1, .mk t ch, h => by
    obtain ⟨init, c, rfl, hs⟩ := spine_succ h
    rw [graft_concat]
    exact spine_concat.2 (spine_graft o k c hs)

theorem attach_spec (root o : Outline) (k : Nat) (h : Spine k root) :
    attach root ((List.range (k + 1)).map (fun i => lastPath i root)) o
      = some ⟨graft k [o] root,
          (List.range (k + 2)).map (fun i => lastPath i (graft k [o] root))⟩ := by
  have hidx : index ((List.range (k + 1)).map (fun i => lastPath i root))
      ((((List.range (k + 1)).map (fun i => lastPath i root)).length : Int) - 1)
      = some (lastPath k root) := by
    simp [index]
  unfold attach
  rw [hidx]
  simp only [appendChild_lastPath o k root h, lastPath_graft_new o k root h]
  congr 2
  rw [List.range_succ (n := k + 1), List.map_append]
  congr 1
  apply List.map_congr_left
  intro i hi
  rw [List.mem_range] at hi
  exact (lastPath_graft_old [o] k root h i (by omega)).symm

/-! ### The loop refines the placement rule -/

theorem loopBody_skip (st : ParseState) (raw : GoString) (h : contentLine raw = none) :
    loopBody st raw = some st := by
  unfold contentLine at h
  unfold loopBody
  by_cases hc : strings.TrimSpace raw = [] ∨
      strings.HasPrefix (strings.TrimSpace raw) (bytes "@start") = true ∨
      strings.HasPrefix (strings.TrimSpace raw) (bytes "@end") = true
  · simp only [hc, if_true]
  · simp only [hc, if_false] at h
    cases h

theorem contentLine_some {raw line : GoString} (h : contentLine raw = some line) :
    line = strings.TrimSpace raw ∧
      ¬ (line = [] ∨ strings.HasPrefix line (bytes "@start") = true ∨
        strings.HasPrefix line (bytes "@end") = true) := by
  unfold contentLine at h
  by_cases hc : strings.TrimSpace raw = [] ∨
      strings.HasPrefix (strings.TrimSpace raw) (bytes "@start") = true ∨
      strings.HasPrefix (strings.TrimSpace raw) (bytes "@end") = true
  · simp only [hc, if_true] at h
    cases h
  · simp only [hc, if_false, Option.some.injEq] at h
    subst h
    exact ⟨rfl, hc⟩

theorem place_zero (st : Outline × Nat) (t : GoString) : place st (0, t) = none := by
  simp [place]

theorem place_pos (st : Outline × Nat) (l : Nat) (t : GoString) (h : l ≠ 0) :
    place st (l, t)
      = some (graft (min l (st.2 + 1) - 1) [.mk t []] st.1, min l (st.2 + 1)) := by
  simp [place, h]

theorem loopBody_content (st : ParseState) (d : Nat) (raw line : GoString)
    (h : contentLine raw = some line) (hinv : Inv st d) :
    (place (st.rootOutline, d) (levelOf line, titleOf line) = none → loopBody st raw = none) ∧
    (∀ r d1, place (st.rootOutline, d) (levelOf line, titleOf line) = some (r, d1) →
      ∃ st1, loopBody st raw = some st1 ∧ st1.rootOutline = r ∧ Inv st1 d1) := by
  obtain ⟨hline, hc⟩ := contentLine_some h
  obtain ⟨hstack, hspine⟩ := hinv
  have hlen : ¬ strings.Count line 42 > line.length := by
    have := List.count_le_length 42 line
    unfold strings.Count
    omega
  have hbody : loopBody st raw =
      if (levelOf line : Int) > (st.stack.length : Int) - 1 then
        attach st.rootOutline st.stack (Outline.mk (titleOf line) [])
      else
        attach st.rootOutline (st.stack.take (levelOf line)) (Outline.mk (titleOf line) []) := by
    unfold loopBody
    simp only [← hline, hc, if_false, hlen]
    rfl
  have hstlen : st.stack.length = d + 1 := by simp [hstack]
  rw [hbody, hstlen]
  by_cases hgt : levelOf line > d
  · have hi : (levelOf line : Int) > ((d + 1 : Nat) : Int) - 1 := by omega
    have hmin : min (levelOf line) (d + 1) = d + 1 := by omega
    rw [if_pos hi, place_pos _ _ _ (by omega), hstack, attach_spec _ _ d hspine]
    simp only [hmin, Nat.add_sub_cancel]
    constructor
    · intro h0
      cases h0
    · intro r d1 h1
      simp only [Option.some.injEq, Prod.mk.injEq] at h1
      obtain ⟨rfl, rfl⟩ := h1
      exact ⟨_, rfl, rfl, rfl, spine_graft _ d _ hspine⟩
  · have hi : ¬ (levelOf line : Int) > ((d + 1 : Nat) : Int) - 1 := by omega
    rw [if_neg hi]
    rcases Nat.eq_zero_or_pos (levelOf line) with h0 | hpos
    · rw [h0, place_zero]
      constructor
      · intro _
        rfl
      · intro r d1 h1
        cases h1
    · obtain ⟨k, hk⟩ : ∃ k, levelOf line = k + 1 := ⟨levelOf line - 1, by omega⟩
      have hmin : min (k + 1) (d + 1) = k + 1 := by omega
      have htake : st.stack.take (k + 1)
          = (List.range (k + 1)).map (fun i => lastPath i st.rootOutline) := by
        rw [hstack, ← List.map_take, List.take_range]
        congr 2
      have hsk : Spine k st.rootOutline := spine_mono d _ hspine k (by omega)
      rw [hk, place_pos _ _ _ (by omega), htake, attach_spec _ _ k hsk]
      simp only [hmin, Nat.add_sub_cancel]
      constructor
      · intro h0
        cases h0
      · intro r d1 h1
        simp only [Option.some.injEq, Prod.mk.injEq] at h1
        obtain ⟨rfl, rfl⟩ := h1
        exact ⟨_, rfl, rfl, rfl, spine_graft _ k _ hsk⟩

theorem loop_refines : ∀ (lines : List GoString) (st : ParseState) (d : Nat), Inv st d →
    (placeAll ((lines.filterMap contentLine).map (fun l => (levelOf l, titleOf l)))
        (st.rootOutline, d) = none → loop lines st = none) ∧
    (∀ r d1, placeAll ((lines.filterMap contentLine).map (fun l => (levelOf l, titleOf l)))
        (st.rootOutline, d) = some (r, d1) →
      ∃ st1, loop lines st = some st1 ∧ st1.rootOutline = r ∧ Inv st1 d1)
  | [], st, d, hinv => by
    constructor
    · intro h
      cases h
    · intro r d1 h
      have h1 : (st.rootOutline, d) = (r, d1) := Option.some.inj h
      simp only [Prod.mk.injEq] at h1
      obtain ⟨rfl, rfl⟩ := h1
      exact ⟨st, rfl, rfl, hinv⟩
  | raw :: lines, st, d, hinv => by
    cases hcl : contentLine raw with
    | none =>
      have ih := loop_refines lines st d hinv
      rw [List.filterMap_cons, hcl]
      have hl : loop (raw :: lines) st = loop lines st := by
        rw [loop, loopBody_skip st raw hcl]
      rw [hl]
      exact ih
    | some line =>
      obtain ⟨hnone, hsome⟩ := loopBody_content st d raw line hcl hinv
      rw [List.filterMap_cons, hcl, List.map_cons, placeAll, loop]
      cases hp : place (st.rootOutline, d) (levelOf line, titleOf line) with
      | none =>
        rw [hnone hp]
        constructor
        · intro _
          rfl
        · intro r d1 h
          cases h
      | some p =>
        obtain ⟨r0, d0⟩ := p
        obtain ⟨st1, hst1, hr, hinv1⟩ := hsome r0 d0 hp
        rw [hst1]
        subst hr
        exact loop_refines lines st1 d0 hinv1

theorem inv_init : Inv ⟨Outline.mk [] [], [[]]⟩ 0 := by
  refine ⟨?_, trivial⟩
  simp [lastPath, List.range_succ]

/-- The parser computes the placement rule on the levels and titles of the
content lines, started on the empty synthetic root. -/
theorem plantUMLToOPML_eq (s : GoString) :
    plantUMLToOPML s = (placeAll (items s) (Outline.mk [] [], 0)).map
      (fun p => document p.1) := by
  obtain ⟨hnone, hsome⟩ := loop_refines (strings.Split s 10) _ 0 inv_init
  unfold plantUMLToOPML items contentLines
  cases hp : placeAll (((strings.Split s 10).filterMap contentLine).map
      (fun l => (levelOf l, titleOf l))) (Outline.mk [] [], 0) with
  | none =>
    simp only [hnone hp, Option.map_none']
  | some p =>
    obtain ⟨r, d1⟩ := p
    obtain ⟨st1, hst1, hr, _⟩ := hsome r d1 hp
    simp only [hst1, Option.map_some', hr, document]

/-! ### Pre-order listing and placement -/

theorem preorderList_append (L M : List Outline) (d : Nat) :
    preorderList (L ++ M) d = preorderList L d ++ preorderList M d := by
  induction L with
  | nil => simp [preorderList]
  | cons a L ih => simp [preorderList, ih]

theorem preorderList_singleton (c : Outline) (d : Nat) :
    preorderList [c] d = preorder c d := by
  simp [preorderList]

theorem preorder_graft (G : List Outline) :
    ∀ (k : Nat) (root : Outline) (d : Nat), Spine k root →
      preorder (graft k G root) d = preorder root d ++ preorderList G (d + k + 1)
  | 0, .mk t ch, d, _ => by
    simp [graft, preorder, preorderList_append]
  | k + 1, .mk t ch, d, h => by
    obtain ⟨init, c, rfl, hs⟩ := spine_succ h
    rw [graft_concat, preorder, preorder, preorderList_append, preorderList_append,
      preorderList_singleton, preorderList_singleton, preorder_graft G k c (d + 1) hs]
    have e : d + 1 + k + 1 = d + (k + 1) + 1 := by omega
    simp [e]

theorem graft_nil : ∀ (k : Nat) (root : Outline), Spine k root → graft k [] root = root
  | 0, .mk t ch, _ => by simp [graft]
  | k + 1, .mk t ch, h => by
    obtain ⟨init, c, rfl, hs⟩ := spine_succ h
    rw [graft_concat, graft_nil k c hs]

theorem graft_graft_succ (t : GoString) (ch : List Outline) :
    ∀ (k : Nat) (root : Outline), Spine k root →
      graft (k + 1) ch (graft k [.mk t []] root) = graft k [.mk t ch] root
  | 0, .mk t0 ch0, _ => by
    simp [graft]
  | k + 1, .mk t0 ch0, h => by
    obtain ⟨init, c, rfl, hs⟩ := spine_succ h
    rw [graft_concat, graft_concat, graft_concat, graft_graft_succ t ch k c hs]

theorem graft_graft (G1 G2 : List Outline) :
    ∀ (k : Nat) (root : Outline), Spine k root →
      graft k G2 (graft k G1 root) = graft k (G1 ++ G2) root
  | 0, .mk t0 ch0, _ => by
    simp [graft]
  | k + 1, .mk t0 ch0, h => by
    obtain ⟨init, c, rfl, hs⟩ := spine_succ h
    rw [graft_concat, graft_concat, graft_concat, graft_graft G1 G2 k c hs]

theorem placeAll_cons_pos (l : Nat) (t : GoString) (rest : List (Nat × GoString))
    (st : Outline × Nat) (h : l ≠ 0) :
    placeAll ((l, t) :: rest) st
      = placeAll rest (graft (min l (st.2 + 1) - 1) [.mk t []] st.1, min l (st.2 + 1)) := by
  rw [placeAll, place_pos st l t h]

theorem placeAll_cons_zero (t : GoString) (rest : List (Nat × GoString))
    (st : Outline × Nat) : placeAll ((0, t) :: rest) st = none := by
  rw [placeAll, place_zero]

mutual
/-- Placing the pre-order listing of a tree, taken one level below a node of
the path of last children, appends the tree to that node. -/
theorem placeAll_preorder (o : Outline) (k : Nat) (root : Outline) (d : Nat)
    (hk : k ≤ d) (hs : Spine d root) :
    ∃ d1, k + 1 ≤ d1 ∧ Spine d1 (graft k [o] root) ∧
      ∀ rest, placeAll (preorder o (k + 1) ++ rest) (root, d)
        = placeAll rest (graft k [o] root, d1) :=
  match o with
  | .mk t ch => by
    have hsk : Spine k root := spine_mono d root hs k hk
    have hmin : min (k + 1) (d + 1) = k + 1 := by omega
    obtain ⟨d1, hd1, hs1, hrun⟩ := placeAll_preorderList ch (k + 1)
      (graft k [.mk t []] root) (k + 1) (le_refl _) (spine_graft _ k root hsk)
    rw [graft_graft_succ t ch k root hsk] at hs1 hrun
    refine ⟨d1, by omega, hs1, fun rest => ?_⟩
    rw [preorder, List.cons_append, placeAll_cons_pos _ _ _ _ (by omega)]
    simp only [hmin, Nat.add_sub_cancel]
    exact hrun rest
/-- Placing the pre-order listing of a forest appends the forest. -/
theorem placeAll_preorderList (G : List Outline) (k : Nat) (root : Outline) (d : Nat)
    (hk : k ≤ d) (hs : Spine d root) :
    ∃ d1, k ≤ d1 ∧ Spine d1 (graft k G root) ∧
      ∀ rest, placeAll (preorderList G (k + 1) ++ rest) (root, d)
        = placeAll rest (graft k G root, d1) :=
  match G with
  | [] => by
    have hsk : Spine k root := spine_mono d root hs k hk
    refine ⟨d, hk, ?_, fun rest => ?_⟩
    · rw [graft_nil k root hsk]
      exact hs
    · rw [graft_nil k root hsk]
      simp [preorderList]
  | c :: cs => by
    have hsk : Spine k root := spine_mono d root hs k hk
    obtain ⟨d1, hd1, hs1, hrun1⟩ := placeAll_preorder c k root d hk hs
    obtain ⟨d2, hd2, hs2, hrun2⟩ := placeAll_preorderList cs k (graft k [c] root) d1
      (by omega) hs1
    rw [graft_graft [c] cs k root hsk] at hs2 hrun2
    refine ⟨d2, hd2, hs2, fun rest => ?_⟩
    rw [preorderList, List.append_assoc, hrun1, hrun2]
    rfl
end

theorem placeAll_preorder_root (F : List Outline) :
    ∃ d1, placeAll (preorderList F 1) (Outline.mk [] [], 0) = some (Outline.mk [] F, d1) := by
  obtain ⟨d1, _, _, hrun⟩ := placeAll_preorderList F 0 (Outline.mk [] []) 0 (le_refl _) trivial
  refine ⟨d1, ?_⟩
  have h := hrun []
  simp only [List.append_nil, placeAll] at h
  rw [h]
  simp [graft]

theorem placeAll_some : ∀ (its : List (Nat × GoString)) (root : Outline) (d : Nat)
    (r : Outline) (d1 : Nat), Spine d root → placeAll its (root, d) = some (r, d1) →
    (∀ it ∈ its, it.1 ≠ 0) ∧
    preorder r 0 = preorder root 0 ++ (depths d (its.map Prod.fst)).zip (its.map Prod.snd)
  | [], root, d, r, d1, _, h => by
    have h1 : (root, d) = (r, d1) := Option.some.inj h
    simp only [Prod.mk.injEq] at h1
    obtain ⟨rfl, rfl⟩ := h1
    simp [depths]
  | (l, t) :: its, root, d, r, d1, hs, h => by
    rcases Nat.eq_zero_or_pos l with rfl | hl
    · rw [placeAll_cons_zero] at h
      cases h
    · rw [placeAll_cons_pos _ _ _ _ (by omega)] at h
      obtain ⟨k, hk⟩ : ∃ k, min l (d + 1) = k + 1 := ⟨min l (d + 1) - 1, by omega⟩
      simp only [hk, Nat.add_sub_cancel] at h
      have hsk : Spine k root := spine_mono d root hs k (by omega)
      obtain ⟨hne, hpre⟩ := placeAll_some its _ (k + 1) r d1 (spine_graft _ k root hsk) h
      constructor
      · intro it hit
        rcases List.mem_cons.1 hit with rfl | hit
        · simpa using Nat.pos_iff_ne_zero.1 hl
        · exact hne it hit
      · rw [hpre, preorder_graft _ k root 0 hsk]
        simp [depths, hk, preorderList, preorder]

theorem placeAll_isSome : ∀ (its : List (Nat × GoString)) (st : Outline × Nat),
    (∀ it ∈ its, it.1 ≠ 0) → ∃ p, placeAll its st = some p
  | [], st, _ => ⟨st, rfl⟩
  | (l, t) :: its, st, h => by
    have hl : l ≠ 0 := h (l, t) (List.mem_cons_self _ _)
    rw [placeAll_cons_pos _ _ _ _ hl]
    exact placeAll_isSome its _ (fun it hit => h it (List.mem_cons_of_mem _ hit))

/-! ### Stripping white space -/

theorem find?_eq_none_of_noLead {table : List GoString} {s : GoString}
    (h : NoLead table s) : table.find? (fun r => r.isPrefixOf s) = none := by
  rw [List.find?_eq_none]
  intro r hr hp
  exact h r hr (List.isPrefixOf_iff_prefix.1 hp)

theorem find?_some_spec {table : List GoString} {s r : GoString}
    (h : table.find? (fun r => r.isPrefixOf s) = some r) : r ∈ table ∧ r <+: s := by
  refine ⟨List.mem_of_find?_eq_some h, ?_⟩
  have := List.find?_some h
  exact List.isPrefixOf_iff_prefix.1 this

theorem noLead_of_find?_eq_none {table : List GoString} {s : GoString}
    (h : table.find? (fun r => r.isPrefixOf s) = none) : NoLead table s := by
  intro r hr hp
  rw [List.find?_eq_none] at h
  exact h r hr (List.isPrefixOf_iff_prefix.2 hp)

theorem trimWith_of_noLead {table : List GoString} {s : GoString} (h : NoLead table s)
    (n : Nat) : strings.trimWith table n s = s := by
  cases n with
  | zero => rfl
  | succ n => simp only [strings.trimWith, find?_eq_none_of_noLead h]

theorem noLead_nil {table : List GoString} (hne : ∀ r ∈ table, r ≠ []) : NoLead table [] := by
  intro r hr hp
  exact hne r hr (List.prefix_nil.1 hp)

theorem noLead_trimWith {table : List GoString} (hne : ∀ r ∈ table, r ≠ []) :
    ∀ (n : Nat) (s : GoString), s.length ≤ n → NoLead table (strings.trimWith table n s)
  | 0, s, h => by
    have hs : s = [] := List.length_eq_zero.1 (by omega)
    subst hs
    exact noLead_nil hne
  | n + 1, s, h => by
    cases hf : table.find? (fun r => r.isPrefixOf s) with
    | none =>
      simp only [strings.trimWith, hf]
      exact noLead_of_find?_eq_none hf
    | some r =>
      simp only [strings.trimWith, hf]
      obtain ⟨hr, hp⟩ := find?_some_spec hf
      have h1 : 0 < r.length := List.length_pos.2 (hne r hr)
      have h2 := hp.length_le
      exact noLead_trimWith hne n _ (by rw [List.length_drop]; omega)

theorem trimWith_final (table : List GoString) :
    ∀ (n : Nat) (s : GoString), strings.trimWith table n s <:+ s
  | 0, s => List.suffix_refl s
  | n + 1, s => by
    cases hf : table.find? (fun r => r.isPrefixOf s) with
    | none =>
      simp only [strings.trimWith, hf]
      exact List.suffix_refl s
    | some r =>
      simp only [strings.trimWith, hf]
      exact (trimWith_final table n _).trans (List.drop_suffix _ _)

theorem prefix_append_cons {r a X : GoString} {b : Nat} (h : r <+: a ++ b :: X) :
    r <+: a ∨ (b ∈ r ∧ a.length < r.length) := by
  rcases List.prefix_or_prefix_of_prefix h (List.prefix_append a (b :: X)) with h1 | h2
  · exact Or.inl h1
  · obtain ⟨y, rfl⟩ := h2
    rw [List.prefix_append_right_inj] at h
    cases y with
    | nil => exact Or.inl (by simp)
    | cons c y =>
      have hc : c = b := (List.cons_prefix_cons.1 h).1
      subst hc
      exact Or.inr ⟨by simp, by simp⟩

theorem find?_congr_mem {p q : GoString → Bool} :
    ∀ (l : List GoString), (∀ x ∈ l, p x = q x) → l.find? p = l.find? q
  | [], _ => rfl
  | x :: l, h => by
    have hx : p x = q x := h x (List.mem_cons_self _ _)
    have ih := find?_congr_mem l (fun y hy => h y (List.mem_cons_of_mem _ hy))
    simp only [List.find?_cons, hx, ih]

theorem find?_append_blocker {table : List GoString} {b : Nat}
    (hb : ∀ r ∈ table, b ∉ r) (a X : GoString) :
    table.find? (fun r => r.isPrefixOf (a ++ b :: X))
      = table.find? (fun r => r.isPrefixOf a) := by
  apply find?_congr_mem
  intro r hr
  rw [Bool.eq_iff_iff, List.isPrefixOf_iff_prefix, List.isPrefixOf_iff_prefix]
  constructor
  · intro h
    rcases prefix_append_cons h with h1 | ⟨h2, _⟩
    · exact h1
    · exact absurd h2 (hb r hr)
  · intro h
    exact h.trans (List.prefix_append a _)

/-- Stripping never crosses a byte that occurs in no member of the table. -/
theorem trimWith_append_blocker {table : List GoString} {b : Nat}
    (hb : ∀ r ∈ table, b ∉ r) (X : GoString) :
    ∀ (n : Nat) (a : GoString),
      strings.trimWith table n (a ++ b :: X) = strings.trimWith table n a ++ b :: X
  | 0, a => rfl
  | n + 1, a => by
    simp only [strings.trimWith, find?_append_blocker hb a X]
    cases hf : table.find? (fun r => r.isPrefixOf a) with
    | none => rfl
    | some r =>
      obtain ⟨_, hp⟩ := find?_some_spec hf
      simp only []
      rw [List.drop_append_of_le_length hp.length_le]
      exact trimWith_append_blocker hb X n _

theorem noLead_cons_blocker {table : List GoString} {b : Nat}
    (hne : ∀ r ∈ table, r ≠ []) (hb : ∀ r ∈ table, b ∉ r) (X : GoString) :
    NoLead table (b :: X) := by
  intro r hr hp
  rcases prefix_append_cons (a := []) hp with h1 | ⟨h2, _⟩
  · exact hne r hr (List.prefix_nil.1 h1)
  · exact hb r hr h2

/-- A stripped, non-empty string stays stripped when an ASCII byte and more
text follow it. -/
theorem noLead_append_ascii {table : List GoString} {b : Nat}
    (hmulti : ∀ r ∈ table, 2 ≤ r.length → b ∉ r) {a : GoString} (ha : a ≠ [])
    (hno : NoLead table a) (X : GoString) : NoLead table (a ++ b :: X) := by
  intro r hr hp
  rcases prefix_append_cons hp with h1 | ⟨h2, h3⟩
  · exact hno r hr h1
  · have : 0 < a.length := List.length_pos.2 ha
    exact hmulti r hr (by omega) h2

/-- A leading one-byte member of the table is stripped. -/
theorem trimWith_cons_single {table : List GoString} {b : Nat}
    (hne : ∀ r ∈ table, r ≠ []) (hmulti : ∀ r ∈ table, 2 ≤ r.length → b ∉ r)
    (hb : [b] ∈ table) (n : Nat) (s : GoString) :
    strings.trimWith table (n + 1) (b :: s) = strings.trimWith table n s := by
  cases hf : table.find? (fun r => r.isPrefixOf (b :: s)) with
  | none =>
    exact absurd (show [b] <+: b :: s by simp) (noLead_of_find?_eq_none hf [b] hb)
  | some r =>
    obtain ⟨hr, hp⟩ := find?_some_spec hf
    have hlen : r.length = 1 := by
      cases r with
      | nil => exact absurd rfl (hne [] hr)
      | cons c r =>
        have hc : c = b := (List.cons_prefix_cons.1 hp).1
        subst hc
        by_contra hcon
        have h2 : 2 ≤ (c :: r).length := by
          have : r ≠ [] := fun h0 => hcon (by simp [h0])
          have := List.length_pos.2 this
          simp
          omega
        exact hmulti _ hr h2 (by simp)
    simp only [strings.trimWith, hf, hlen, List.drop_one, List.tail_cons]

/-! ### The white-space table and `strings.TrimSpace` -/

theorem spaceRunes_ne : ∀ r ∈ strings.spaceRunes, r ≠ [] := by decide

theorem spaceRunes_multi :
    ∀ r ∈ strings.spaceRunes, 2 ≤ r.length → ∀ b ∈ r, 128 ≤ b := by decide

theorem spaceRunesRev_ne : ∀ r ∈ strings.spaceRunes.map List.reverse, r ≠ [] := by decide

theorem spaceRunesRev_multi :
    ∀ r ∈ strings.spaceRunes.map List.reverse, 2 ≤ r.length → ∀ b ∈ r, 128 ≤ b := by
  decide

theorem spaceRunes_ascii {b : Nat} (hb : b < 128) :
    ∀ r ∈ strings.spaceRunes, 2 ≤ r.length → b ∉ r := by
  intro r hr h2 hmem
  have := spaceRunes_multi r hr h2 b hmem
  omega

theorem spaceRunesRev_ascii {b : Nat} (hb : b < 128) :
    ∀ r ∈ strings.spaceRunes.map List.reverse, 2 ≤ r.length → b ∉ r := by
  intro r hr h2 hmem
  have := spaceRunesRev_multi r hr h2 b hmem
  omega

theorem star_blocks : ∀ r ∈ strings.spaceRunes, 42 ∉ r := by decide

theorem star_blocks_rev : ∀ r ∈ strings.spaceRunes.map List.reverse, 42 ∉ r := by decide

theorem trimLeft_of_noLead {s : GoString} (h : NoLead strings.spaceRunes s) :
    strings.TrimLeftSpace s = s :=
  trimWith_of_noLead h _

theorem trimRight_of_noLead {s : GoString}
    (h : NoLead (strings.spaceRunes.map List.reverse) s.reverse) :
    strings.TrimRightSpace s = s := by
  unfold strings.TrimRightSpace
  rw [trimWith_of_noLead h, List.reverse_reverse]

theorem noLead_trimLeft (s : GoString) :
    NoLead strings.spaceRunes (strings.TrimLeftSpace s) :=
  noLead_trimWith spaceRunes_ne _ _ (le_refl _)

theorem noLead_trimRight (s : GoString) :
    NoLead (strings.spaceRunes.map List.reverse) (strings.TrimRightSpace s).reverse := by
  unfold strings.TrimRightSpace
  rw [List.reverse_reverse]
  exact noLead_trimWith spaceRunesRev_ne _ _ (by simp)

theorem trimLeft_final (s : GoString) : strings.TrimLeftSpace s <:+ s :=
  trimWith_final _ _ _

theorem trimRight_initial (s : GoString) : strings.TrimRightSpace s <+: s := by
  unfold strings.TrimRightSpace
  have h := trimWith_final (strings.spaceRunes.map List.reverse) s.length s.reverse
  have h2 := List.reverse_prefix.2 h
  rwa [List.reverse_reverse] at h2

theorem trimSpace_within (s : GoString) : strings.TrimSpace s <:+: s :=
  (trimRight_initial _).isInfix.trans (trimLeft_final s).isInfix

theorem noLead_of_initial {table : List GoString} {s v : GoString} (h : NoLead table s)
    (hv : v <+: s) : NoLead table v :=
  fun r hr hp => h r hr (hp.trans hv)

theorem trimSpace_of_noLead {s : GoString} (h1 : NoLead strings.spaceRunes s)
    (h2 : NoLead (strings.spaceRunes.map List.reverse) s.reverse) :
    strings.TrimSpace s = s := by
  unfold strings.TrimSpace
  rw [trimLeft_of_noLead h1, trimRight_of_noLead h2]

theorem noLead_trimSpace (s : GoString) :
    NoLead strings.spaceRunes (strings.TrimSpace s) :=
  noLead_of_initial (noLead_trimLeft s) (trimRight_initial _)

theorem noLead_trimSpace_rev (s : GoString) :
    NoLead (strings.spaceRunes.map List.reverse) (strings.TrimSpace s).reverse :=
  noLead_trimRight _

/-- Trimming twice is trimming once. -/
theorem trimSpace_idem (s : GoString) : Trimmed (strings.TrimSpace s) :=
  trimSpace_of_noLead (noLead_trimSpace s) (noLead_trimSpace_rev s)

theorem trimmed_noLead {s : GoString} (h : Trimmed s) :
    NoLead strings.spaceRunes s ∧ NoLead (strings.spaceRunes.map List.reverse) s.reverse := by
  unfold Trimmed at h
  constructor
  · rw [← h]
    exact noLead_trimSpace s
  · rw [← h]
    exact noLead_trimSpace_rev s

theorem trimmed_nil : Trimmed [] := by
  unfold Trimmed
  decide

theorem trimSpace_nil : strings.TrimSpace [] = [] := by decide

/-- The separator blank in front of a trimmed label is stripped. -/
theorem trimSpace_blank_cons {l : GoString} (h : Trimmed l) :
    strings.TrimSpace (32 :: l) = l := by
  obtain ⟨h1, h2⟩ := trimmed_noLead h
  unfold strings.TrimSpace
  have hl : strings.TrimLeftSpace (32 :: l) = l := by
    unfold strings.TrimLeftSpace
    rw [List.length_cons,
      trimWith_cons_single spaceRunes_ne (spaceRunes_ascii (by omega)) (by decide)]
    exact trimWith_of_noLead h1 _
  rw [hl, trimRight_of_noLead h2]

/-- A marker line with a non-empty trimmed label is already trimmed. -/
theorem trimSpace_markers_label {l : GoString} (h : Trimmed l) (hl : l ≠ []) (k : Nat) :
    strings.TrimSpace (List.replicate (k + 1) 42 ++ 32 :: l)
      = List.replicate (k + 1) 42 ++ 32 :: l := by
  obtain ⟨_, h2⟩ := trimmed_noLead h
  apply trimSpace_of_noLead
  · rw [List.replicate_succ, List.cons_append]
    exact noLead_cons_blocker spaceRunes_ne star_blocks _
  · rw [List.reverse_append, List.reverse_cons, List.append_assoc, List.singleton_append]
    exact noLead_append_ascii (spaceRunesRev_ascii (by omega)) (by simpa using hl) h2 _

/-- A marker line with an empty label loses its separator blank. -/
theorem trimSpace_markers_blank (k : Nat) :
    strings.TrimSpace (List.replicate (k + 1) 42 ++ [32]) = List.replicate (k + 1) 42 := by
  unfold strings.TrimSpace
  have hl : strings.TrimLeftSpace (List.replicate (k + 1) 42 ++ [32])
      = List.replicate (k + 1) 42 ++ [32] := by
    apply trimLeft_of_noLead
    rw [List.replicate_succ, List.cons_append]
    exact noLead_cons_blocker spaceRunes_ne star_blocks _
  rw [hl]
  unfold strings.TrimRightSpace
  rw [List.reverse_append, List.reverse_singleton, List.singleton_append,
    List.length_append, List.length_singleton,
    trimWith_cons_single spaceRunesRev_ne (spaceRunesRev_ascii (by omega)) (by decide),
    List.reverse_replicate]
  have hno : NoLead (strings.spaceRunes.map List.reverse) (List.replicate (k + 1) 42) := by
    rw [List.replicate_succ]
    exact noLead_cons_blocker spaceRunesRev_ne star_blocks_rev _
  rw [trimWith_of_noLead hno, List.reverse_replicate]

/-- Right trimming keeps a leading text that ends in a byte of no white-space
rune. -/
theorem prefix_trimRight {p0 u : GoString} {b : Nat}
    (hb : ∀ r ∈ strings.spaceRunes.map List.reverse, b ∉ r) (h : p0 ++ [b] <+: u) :
    p0 ++ [b] <+: strings.TrimRightSpace u := by
  obtain ⟨z, rfl⟩ := h
  unfold strings.TrimRightSpace
  have e : (p0 ++ [b] ++ z).reverse = z.reverse ++ b :: p0.reverse := by simp
  rw [e, trimWith_append_blocker hb]
  simp

theorem hasPrefix_trimSpace_iff (c p0 : GoString) (b : Nat)
    (hb : ∀ r ∈ strings.spaceRunes.map List.reverse, b ∉ r) :
    strings.HasPrefix (strings.TrimSpace c) (p0 ++ [b]) = true
      ↔ strings.HasPrefix (strings.TrimLeftSpace c) (p0 ++ [b]) = true := by
  unfold strings.HasPrefix strings.TrimSpace
  rw [List.isPrefixOf_iff_prefix, List.isPrefixOf_iff_prefix]
  exact ⟨fun h => h.trans (trimRight_initial _), fun h => prefix_trimRight hb h⟩

/-! ### Lines of the marker text -/

theorem bytes_blank : bytes " " = [32] := by decide

theorem bytes_newline : bytes "\n" = [10] := by decide

theorem bytes_start : bytes "@start" = [64, 115, 116, 97, 114, 116] := by decide

theorem bytes_end : bytes "@end" = [64, 101, 110, 100] := by decide

theorem nodeLine_eq (item : Nat × GoString) : nodeLine item = lineText item ++ [10] := by
  simp [nodeLine, lineText, strings.Repeat, bytes_blank, bytes_newline]

mutual
/-- The closure `traverse` writes the lines of the pre-order listing. -/
theorem traverse_eq (o : Outline) (d : Nat) :
    traverse o d = ((preorder o d).map nodeLine).flatten :=
  match o with
  | .mk t ch => by
    rw [traverse, preorder, List.map_cons, List.flatten_cons, traverseChildren_eq ch (d + 1)]
    rfl
/-- The loop over the children writes the lines of the pre-order listing. -/
theorem traverseChildren_eq (F : List Outline) (d : Nat) :
    traverseChildren F d = ((preorderList F d).map nodeLine).flatten :=
  match F with
  | [] => by simp [traverseChildren, preorderList]
  | c :: cs => by
    rw [traverseChildren, preorderList, List.map_append, List.flatten_append,
      traverse_eq c d, traverseChildren_eq cs d]
end

theorem opmlToPlantUML_eq (opml : OPML) :
    opmlToPlantUML opml = markerText (preorderList opml.Body.Outline 1) := by
  rw [opmlToPlantUML, traverseChildren_eq, markerText]

theorem split_no_sep : ∀ (a : GoString), 10 ∉ a → strings.Split a 10 = [a]
  | [], _ => rfl
  | c :: a, h => by
    have hc : c ≠ 10 := fun e => h (by simp [e])
    have ha : 10 ∉ a := fun e => h (List.mem_cons_of_mem _ e)
    simp [strings.Split, hc, split_no_sep a ha]

theorem split_append_sep (rest : GoString) :
    ∀ (a : GoString), 10 ∉ a → strings.Split (a ++ 10 :: rest) 10 = a :: strings.Split rest 10
  | [], _ => by simp [strings.Split]
  | c :: a, h => by
    have hc : c ≠ 10 := fun e => h (by simp [e])
    have ha : 10 ∉ a := fun e => h (List.mem_cons_of_mem _ e)
    simp [strings.Split, hc, split_append_sep rest a ha]

theorem split_no_sep_mem : ∀ (s : GoString), ∀ l ∈ strings.Split s 10, 10 ∉ l
  | [], l, hl => by
    simp only [strings.Split, List.mem_singleton] at hl
    subst hl
    simp
  | c :: s, l, hl => by
    have ih := split_no_sep_mem s
    by_cases hc : c = 10
    · simp only [strings.Split, hc, if_true, List.mem_cons] at hl
      rcases hl with rfl | hl
      · simp
      · exact ih l hl
    · simp only [strings.Split, hc, if_false] at hl
      cases hsp : strings.Split s 10 with
      | nil =>
        simp only [hsp, List.mem_singleton] at hl
        subst hl
        simpa using fun e : 10 = c => hc e.symm
      | cons piece pieces =>
        simp only [hsp, List.mem_cons] at hl
        rcases hl with rfl | hl
        · have hp : 10 ∉ piece := ih piece (by simp [hsp])
          intro hmem
          rcases List.mem_cons.1 hmem with e | e
          · exact hc e.symm
          · exact hp e
        · exact ih l (by simp [hsp, hl])

theorem lineText_no_sep {item : Nat × GoString} (h : 10 ∉ item.2) : 10 ∉ lineText item := by
  unfold lineText
  intro hmem
  rcases List.mem_append.1 hmem with e | e
  · have := List.eq_of_mem_replicate e
    omega
  · rcases List.mem_cons.1 e with e | e
    · omega
    · exact h e

theorem split_lines (tail : GoString) :
    ∀ (its : List (Nat × GoString)), (∀ it ∈ its, 10 ∉ it.2) →
      strings.Split ((its.map nodeLine).flatten ++ tail) 10
        = its.map lineText ++ strings.Split tail 10
  | [], _ => by simp
  | it :: its, h => by
    have h1 : 10 ∉ it.2 := h it (List.mem_cons_self _ _)
    have ih := split_lines tail its (fun x hx => h x (List.mem_cons_of_mem _ hx))
    rw [List.map_cons, List.flatten_cons, nodeLine_eq, List.append_assoc, List.append_assoc,
      List.singleton_append, split_append_sep _ _ (lineText_no_sep h1), ih]
    rfl

theorem split_markerText (its : List (Nat × GoString)) (h : ∀ it ∈ its, 10 ∉ it.2) :
    strings.Split (markerText its) 10
      = bytes "@startmindmap" :: (its.map lineText ++ [bytes "@endmindmap"]) := by
  have e1 : bytes "@startmindmap\n" = bytes "@startmindmap" ++ [10] := by decide
  have e2 : (10 : Nat) ∉ bytes "@startmindmap" := by decide
  have e3 : (10 : Nat) ∉ bytes "@endmindmap" := by decide
  rw [markerText, e1, List.append_assoc, List.append_assoc, List.singleton_append,
    split_append_sep _ _ e2, split_lines _ its h, split_no_sep _ e3]

theorem count_lineText (item : Nat × GoString) (h : 42 ∉ item.2) :
    List.count 42 (lineText item) = item.1 := by
  unfold lineText
  rw [List.count_append, List.count_replicate_self, List.count_cons_of_ne (by omega),
    List.count_eq_zero_of_not_mem h]
  rfl

/-- A marker line written for a label without marker is read back with the
same marker count and the same label. -/
theorem contentLine_lineText {item : Nat × GoString} (hk : item.1 ≠ 0) (ht : Trimmed item.2)
    (hs : 42 ∉ item.2) :
    ∃ line, contentLine (lineText item) = some line ∧ levelOf line = item.1
      ∧ titleOf line = item.2 := by
  obtain ⟨k, l⟩ := item
  obtain ⟨k, rfl⟩ : ∃ j, k = j + 1 := ⟨k - 1, by simp at hk; omega⟩
  simp only at ht hs
  by_cases hl : l = []
  · subst hl
    refine ⟨List.replicate (k + 1) 42, ?_, ?_, ?_⟩
    · unfold contentLine lineText
      simp only [trimSpace_markers_blank]
      simp [List.replicate_succ, strings.HasPrefix, bytes_start, bytes_end]
    · simp [levelOf, strings.Count]
    · simp [titleOf, levelOf, strings.Count, trimSpace_nil]
  · refine ⟨lineText (k + 1, l), ?_, ?_, ?_⟩
    · unfold contentLine lineText
      simp only [trimSpace_markers_label ht hl]
      simp [List.replicate_succ, strings.HasPrefix, bytes_start, bytes_end]
    · simp only [levelOf, strings.Count]
      exact count_lineText (k + 1, l) hs
    · have hc : List.count 42 (lineText (k + 1, l)) = k + 1 :=
        count_lineText (k + 1, l) hs
      simp only [titleOf, levelOf, strings.Count, hc]
      unfold lineText
      rw [List.drop_append_of_le_length (by simp)]
      simp [trimSpace_blank_cons ht]

theorem contentLine_delims :
    contentLine (bytes "@startmindmap") = none ∧ contentLine (bytes "@endmindmap") = none := by
  decide

/-- The parser reads the items of a marker text back, when the labels are
trimmed and hold neither a marker nor a line end. -/
theorem items_markerText (its : List (Nat × GoString))
    (h : ∀ it ∈ its, it.1 ≠ 0 ∧ Trimmed it.2 ∧ 42 ∉ it.2 ∧ 10 ∉ it.2) :
    items (markerText its) = its := by
  unfold items contentLines
  rw [split_markerText its (fun it hit => (h it hit).2.2.2)]
  simp only [List.filterMap_cons, contentLine_delims.1, List.filterMap_append,
    contentLine_delims.2, List.filterMap_nil, List.append_nil]
  clear * - h
  induction its with
  | nil => rfl
  | cons it its ih =>
    obtain ⟨hk, ht, hs, _⟩ := h it (List.mem_cons_self _ _)
    obtain ⟨line, hline, hlev, htit⟩ := contentLine_lineText hk ht hs
    rw [List.map_cons, List.filterMap_cons, hline, List.map_cons, hlev, htit,
      ih (fun x hx => h x (List.mem_cons_of_mem _ hx))]

/-! ### Parents in the pre-order listing -/

mutual
theorem preorder_length (o : Outline) (d : Nat) : (preorder o d).length = o.size :=
  match o with
  | .mk t ch => by
    rw [preorder, List.length_cons, preorderList_length ch (d + 1), Outline.size]
    omega
theorem preorderList_length (F : List Outline) (d : Nat) :
    (preorderList F d).length = sizeList F :=
  match F with
  | [] => by simp [preorderList, sizeList]
  | c :: cs => by
    rw [preorderList, List.length_append, preorder_length c d, preorderList_length cs d,
      sizeList]
end

mutual
theorem preorder_depth_ge (o : Outline) (d : Nat) : ∀ x ∈ preorder o d, d ≤ x.1 :=
  match o with
  | .mk t ch => by
    intro x hx
    rw [preorder, List.mem_cons] at hx
    rcases hx with rfl | hx
    · exact le_refl _
    · have := preorderList_depth_ge ch (d + 1) x hx
      omega
theorem preorderList_depth_ge (F : List Outline) (d : Nat) :
    ∀ x ∈ preorderList F d, d ≤ x.1 :=
  match F with
  | [] => by simp [preorderList]
  | c :: cs => by
    intro x hx
    rw [preorderList, List.mem_append] at hx
    rcases hx with hx | hx
    · exact preorder_depth_ge c d x hx
    · exact preorderList_depth_ge cs d x hx
end

theorem recent_append_skip (target : Nat) (prev : List Nat) :
    ∀ (xs : List Nat), (∀ x ∈ xs, x ≠ target) → recent (xs ++ prev) target = recent prev target
  | [], _ => rfl
  | x :: xs, h => by
    have hx : x ≠ target := h x (List.mem_cons_self _ _)
    rw [List.cons_append, recent, if_neg hx]
    exact recent_append_skip target prev xs (fun y hy => h y (List.mem_cons_of_mem _ hy))

theorem annotate_append (ys : List (Nat × GoString)) :
    ∀ (xs : List (Nat × GoString)) (prev : List Nat),
      annotate prev (xs ++ ys)
        = annotate prev xs ++ annotate ((xs.map Prod.fst).reverse ++ prev) ys
  | [], prev => by simp [annotate]
  | (d, t) :: xs, prev => by
    rw [List.cons_append, annotate, annotate, annotate_append ys xs (d :: prev)]
    simp

mutual
theorem nodes_annotate (o : Outline) (prev : List Nat) (n : Nat) (p : Option Nat) (d0 : Nat)
    (hn : n = prev.length) (hp : recent prev d0 = p) :
    nodes o n p (d0 + 1) = annotate prev (preorder o (d0 + 1)) :=
  match o with
  | .mk t ch => by
    rw [nodes, preorder, annotate, Nat.add_sub_cancel, hp,
      nodesList_annotate ch ((d0 + 1) :: prev) (n + 1) (some n) (d0 + 1)
        (by simp [hn]) (by simp [recent, hn])]
theorem nodesList_annotate (F : List Outline) (prev : List Nat) (n : Nat) (p : Option Nat)
    (d0 : Nat) (hn : n = prev.length) (hp : recent prev d0 = p) :
    nodesList F n p (d0 + 1) = annotate prev (preorderList F (d0 + 1)) :=
  match F with
  | [] => by simp [nodesList, preorderList, annotate]
  | c :: cs => by
    rw [nodesList, preorderList, annotate_append, nodes_annotate c prev n p d0 hn hp,
      nodesList_annotate cs (((preorder c (d0 + 1)).map Prod.fst).reverse ++ prev)
        (n + c.size) p d0]
    · simp [hn, preorder_length, Nat.add_comm]
    · rw [recent_append_skip, hp]
      intro x hx
      rw [List.mem_reverse, List.mem_map] at hx
      obtain ⟨y, hy, rfl⟩ := hx
      have := preorder_depth_ge c (d0 + 1) y hy
      omega
end

theorem items_fst (s : GoString) : (items s).map Prod.fst = (contentLines s).map levelOf := by
  simp [items, Function.comp_def]

theorem items_snd (s : GoString) : (items s).map Prod.snd = (contentLines s).map titleOf := by
  simp [items, Function.comp_def]

/-- What a returning run of the parser has built: the pre-order listing of the
body is the sequence of the placement depths and the titles. -/
theorem plantUMLToOPML_some {s : GoString} {doc : OPML} (h : plantUMLToOPML s = some doc) :
    (∀ it ∈ items s, it.1 ≠ 0) ∧
    doc.Version = bytes "2.0" ∧ doc.Head.Title = bytes "Converted Mindmap" ∧
    preorderList doc.Body.Outline 1
      = (depths 0 ((items s).map Prod.fst)).zip ((items s).map Prod.snd) := by
  rw [plantUMLToOPML_eq] at h
  cases hp : placeAll (items s) (Outline.mk [] [], 0) with
  | none =>
    rw [hp] at h
    cases h
  | some p =>
    obtain ⟨r, d1⟩ := p
    rw [hp] at h
    have hdoc : document r = doc := Option.some.inj h
    obtain ⟨hne, hpre⟩ := placeAll_some (items s) _ 0 r d1 trivial hp
    subst hdoc
    refine ⟨hne, rfl, rfl, ?_⟩
    cases r with
    | mk t F =>
      simp only [preorder, preorderList, List.cons_append, List.nil_append,
        List.cons.injEq, Prod.mk.injEq] at hpre
      exact hpre.2

/-- The parser returns when every content line has a marker. -/
theorem plantUMLToOPML_returns {s : GoString} (h : ∀ it ∈ items s, it.1 ≠ 0) :
    ∃ doc, plantUMLToOPML s = some doc := by
  obtain ⟨p, hp⟩ := placeAll_isSome (items s) (Outline.mk [] [], 0) h
  exact ⟨document p.1, by rw [plantUMLToOPML_eq, hp]; rfl⟩

/-! ### Round trips -/

theorem mem_labels_of_mem {F : List Outline} {it : Nat × GoString}
    (h : it ∈ preorderList F 1) : it.2 ∈ labels F :=
  List.mem_map.2 ⟨it, h, rfl⟩

/-- The text written for a forest whose labels are trimmed and hold neither a
marker nor a line end parses back to the forest. -/
theorem reparse_forest (F : List Outline)
    (h : ∀ l ∈ labels F, Trimmed l ∧ 42 ∉ l ∧ 10 ∉ l) :
    plantUMLToOPML (markerText (preorderList F 1)) = some (document (.mk [] F)) := by
  have hi : items (markerText (preorderList F 1)) = preorderList F 1 := by
    apply items_markerText
    intro it hit
    have hd := preorderList_depth_ge F 1 it hit
    have hl := h it.2 (mem_labels_of_mem hit)
    exact ⟨by omega, hl⟩
  obtain ⟨d1, hd1⟩ := placeAll_preorder_root F
  rw [plantUMLToOPML_eq, hi, hd1]
  rfl

theorem zip_map_fst_snd : ∀ (l : List (Nat × GoString)),
    (l.map Prod.fst).zip (l.map Prod.snd) = l
  | [] => rfl
  | x :: l => by simp [zip_map_fst_snd l]

theorem depths_of_noGap : ∀ (ks : List Nat) (d : Nat), NoGap d ks → depths d ks = ks
  | [], _, _ => rfl
  | k :: ks, d, h => by
    obtain ⟨h1, h2, h3⟩ := h
    have hmin : min k (d + 1) = k := by omega
    rw [depths, hmin, depths_of_noGap ks k h3]

theorem noGap_pos : ∀ (ks : List Nat) (d : Nat), NoGap d ks → ∀ k ∈ ks, k ≠ 0
  | [], _, _, k, hk => by cases hk
  | k0 :: ks, d, h, k, hk => by
    obtain ⟨h1, _, h3⟩ := h
    rcases List.mem_cons.1 hk with rfl | hk
    · omega
    · exact noGap_pos ks k0 h3 k hk

theorem drop_count_of_lead : ∀ (line : GoString), 42 ∉ line.dropWhile (fun b => b == 42) →
    line.drop (List.count 42 line) = line.dropWhile (fun b => b == 42)
  | [], _ => rfl
  | c :: line, h => by
    by_cases hc : c = 42
    · subst hc
      simp only [List.dropWhile_cons, beq_self_eq_true, if_true] at h ⊢
      rw [List.count_cons_self, List.drop_succ_cons]
      exact drop_count_of_lead line h
    · have hb : (c == 42) = false := by simpa using hc
      simp only [List.dropWhile_cons, hb, Bool.false_eq_true, if_false] at h ⊢
      rw [List.count_eq_zero_of_not_mem h]
      rfl

theorem not_mem_of_infix {b : Nat} {u v : GoString} (h : u <:+: v) (hv : b ∉ v) : b ∉ u :=
  fun hu => hv (h.subset hu)

theorem mem_contentLines {x line : GoString} (h : line ∈ contentLines x) :
    ∃ raw ∈ strings.Split x 10, line = strings.TrimSpace raw := by
  unfold contentLines at h
  rw [List.mem_filterMap] at h
  obtain ⟨raw, hraw, hc⟩ := h
  exact ⟨raw, hraw, (contentLine_some hc).1⟩

/-- The title of a content line whose markers all lead is trimmed and holds
neither a marker nor a line end. -/
theorem titleOf_clean {x line : GoString} (h : line ∈ contentLines x)
    (hlead : 42 ∉ line.dropWhile (fun b => b == 42)) :
    Trimmed (titleOf line) ∧ 42 ∉ titleOf line ∧ 10 ∉ titleOf line := by
  obtain ⟨raw, hraw, rfl⟩ := mem_contentLines h
  have h10 : 10 ∉ strings.TrimSpace raw :=
    not_mem_of_infix (trimSpace_within raw) (split_no_sep_mem x raw hraw)
  refine ⟨trimSpace_idem _, ?_, ?_⟩
  · unfold titleOf levelOf strings.Count
    rw [drop_count_of_lead _ hlead]
    exact not_mem_of_infix (trimSpace_within _) hlead
  · unfold titleOf
    exact not_mem_of_infix ((trimSpace_within _).trans (List.drop_suffix _ _).isInfix) h10

/-! ### Order, layout and failure -/

theorem depths_length : ∀ (ls : List Nat) (d : Nat), (depths d ls).length = ls.length
  | [], _ => rfl
  | l :: ls, d => by simp [depths, depths_length ls]

theorem placeAll_eq_none_iff : ∀ (its : List (Nat × GoString)) (st : Outline × Nat),
    placeAll its st = none ↔ ∃ it ∈ its, it.1 = 0
  | [], st => by simp [placeAll]
  | (l, t) :: its, st => by
    rcases Nat.eq_zero_or_pos l with rfl | hl
    · rw [placeAll_cons_zero]
      simp
    · rw [placeAll_cons_pos _ _ _ _ (by omega), placeAll_eq_none_iff its]
      constructor
      · rintro ⟨it, hit, h0⟩
        exact ⟨it, List.mem_cons_of_mem _ hit, h0⟩
      · rintro ⟨it, hit, h0⟩
        rcases List.mem_cons.1 hit with rfl | hit
        · simp only at h0
          omega
        · exact ⟨it, hit, h0⟩

theorem split_joinLines : ∀ (ls : List GoString), ls ≠ [] → (∀ l ∈ ls, 10 ∉ l) →
    strings.Split (joinLines ls) 10 = ls
  | [], h, _ => absurd rfl h
  | [l], _, h => by
    rw [joinLines]
    exact split_no_sep l (h l (List.mem_singleton_self l))
  | l :: l1 :: ls, _, h => by
    rw [joinLines, split_append_sep _ _ (h l (List.mem_cons_self _ _)),
      split_joinLines (l1 :: ls) (by simp) (fun x hx => h x (List.mem_cons_of_mem _ hx))]

/-- A content line is a content line of its own. -/
theorem contentLine_of_mem {x line : GoString} (h : line ∈ contentLines x) :
    contentLine line = some line ∧ 10 ∉ line := by
  unfold contentLines at h
  rw [List.mem_filterMap] at h
  obtain ⟨raw, hraw, hc⟩ := h
  obtain ⟨hline, hskip⟩ := contentLine_some hc
  have hidem : strings.TrimSpace line = line := by
    rw [hline]
    exact trimSpace_idem raw
  constructor
  · unfold contentLine
    simp only [hidem, hskip, if_false]
  · rw [hline]
    exact not_mem_of_infix (trimSpace_within raw) (split_no_sep_mem x raw hraw)

theorem filterMap_contentLine_self : ∀ (ls : List GoString),
    (∀ l ∈ ls, contentLine l = some l) → ls.filterMap contentLine = ls
  | [], _ => rfl
  | l :: ls, h => by
    rw [List.filterMap_cons, h l (List.mem_cons_self _ _),
      filterMap_contentLine_self ls (fun x hx => h x (List.mem_cons_of_mem _ hx))]

theorem contentLines_joinLines (ls : List GoString) (hne : ls ≠ [])
    (h10 : ∀ l ∈ ls, 10 ∉ l) (hself : ∀ l ∈ ls, contentLine l = some l) :
    contentLines (joinLines ls) = ls := by
  unfold contentLines
  rw [split_joinLines ls hne h10, filterMap_contentLine_self ls hself]

/-- Trimming the lines and deleting the skipped ones keeps the content lines. -/
theorem contentLines_normalize (s : GoString) :
    contentLines (normalize s) = contentLines s := by
  unfold normalize
  by_cases hnil : contentLines s = []
  · rw [hnil]
    decide
  · exact contentLines_joinLines _ hnil (fun l hl => (contentLine_of_mem hl).2)
      (fun l hl => (contentLine_of_mem hl).1)

/-! ### The command-line program -/

theorem trimSuffix_length (s suffix : GoString) :
    (strings.TrimSuffix s suffix).length = s.length ∨
    (suffix.length ≤ s.length ∧ (strings.TrimSuffix s suffix).length = s.length - suffix.length) := by
  unfold strings.TrimSuffix
  by_cases h : strings.HasSuffix s suffix = true
  · right
    have hs : suffix <:+ s := List.isSuffixOf_iff_suffix.1 h
    refine ⟨hs.length_le, ?_⟩
    rw [if_pos h, List.length_take]
    omega
  · left
    rw [if_neg h]

theorem trimSuffix_append_ne (p suffix ext : GoString) (h : suffix.length ≠ ext.length)
    (hext : ext ≠ []) : strings.TrimSuffix p suffix ++ ext ≠ p := by
  intro heq
  have hlen := congrArg List.length heq
  rw [List.length_append] at hlen
  have hpos : 0 < ext.length := List.length_pos.2 hext
  rcases trimSuffix_length p suffix with h1 | ⟨h1, h2⟩
  · omega
  · omega

theorem read_write_ne (fs : FileSystem) (path data p : GoString) (h : p ≠ path) :
    (fs.write path data).read p = fs.read p := by
  simp [FileSystem.write, h]

theorem saveOPML_read (xmlEncode : OPML → GoString × Option Error) (fs : FileSystem)
    (filename : GoString) (opml : OPML) (p : GoString) (h : p ≠ filename) :
    (saveOPML xmlEncode fs filename opml).1.read p = fs.read p := by
  unfold saveOPML
  cases fs.create filename with
  | some err => rfl
  | none =>
    rcases hx : xmlEncode opml with ⟨written, _ | err⟩
    · exact read_write_ne fs filename written p h
    · exact read_write_ne fs filename written p h

theorem writeFile_read (fs : FileSystem) (filename data p : GoString) (h : p ≠ filename) :
    (WriteFile fs filename data).1.read p = fs.read p := by
  unfold WriteFile
  cases fs.create filename with
  | some err => rfl
  | none => exact read_write_ne fs filename data p h

/-- A run of the program leaves the content of its input file as it was. -/
theorem mainWith_keeps_input (toPlantUML : OPML → GoString)
    (xmlEncode : OPML → GoString × Option Error) (xmlDecode : GoString → OPML × Option Error)
    (args : List GoString) (fs : FileSystem) :
    (mainWith toPlantUML xmlEncode xmlDecode args fs).fs.read (args.getD 1 [])
      = fs.read (args.getD 1 []) := by
  have n1 : strings.TrimSuffix (args.getD 1 []) (bytes ".plantuml") ++ bytes ".opml"
      ≠ args.getD 1 [] := trimSuffix_append_ne _ _ _ (by decide) (by decide)
  have n2 : strings.TrimSuffix (args.getD 1 []) (bytes ".opml") ++ bytes ".plantuml"
      ≠ args.getD 1 [] := trimSuffix_append_ne _ _ _ (by decide) (by decide)
  unfold mainWith
  dsimp only
  split
  · rfl
  · split
    · rfl
    · split
      · split
        · rfl
        · rename_i opml _
          have hs := saveOPML_read xmlEncode fs _ opml _ n1.symm
          split
          · rename_i fs1 err hsv
            rw [hsv] at hs
            exact hs
          · rename_i fs1 hsv
            rw [hsv] at hs
            exact hs
      · split
        · split
          · rfl
          · rename_i opml _
            have hs := writeFile_read fs
              (strings.TrimSuffix (args.getD 1 []) (bytes ".opml") ++ bytes ".plantuml")
              (toPlantUML opml) _ n2.symm
            split
            · rename_i fs1 err hw
              rw [hw] at hs
              exact hs
            · rename_i fs1 hw
              rw [hw] at hs
              exact hs
        · rfl

/-! ### The XML layer: escaping -/

set_option maxRecDepth 4000 in
/-- The three cases of a rune at the head of a text: an ASCII byte, an
ill-formed byte, or a well-formed sequence of bytes from 0x80 on. -/
theorem decodeRune_cons (b : Nat) (rest : GoString) :
    (b < 0x80 ∧ (xml.decodeRune (b :: rest)).1 = b ∧ (xml.decodeRune (b :: rest)).2 = 1) ∨
    (0x80 ≤ b ∧ (xml.decodeRune (b :: rest)).1 = 0xFFFD ∧ (xml.decodeRune (b :: rest)).2 = 1) ∨
    (0x80 ≤ (xml.decodeRune (b :: rest)).1 ∧ 2 ≤ (xml.decodeRune (b :: rest)).2 ∧
      (xml.decodeRune (b :: rest)).2 ≤ rest.length + 1 ∧
      ∀ x ∈ (b :: rest).take (xml.decodeRune (b :: rest)).2, 0x80 ≤ x) := by
  generalize hd : xml.decodeRune (b :: rest) = d
  unfold xml.decodeRune at hd
  simp only [] at hd
  repeat' split at hd
  all_goals subst hd
  all_goals simp only [List.length_cons, List.take_succ_cons, List.take_zero, List.mem_cons,
    List.mem_singleton, List.not_mem_nil, or_false]
  all_goals first
    | (left; refine ⟨?_, ?_, ?_⟩ <;> first | omega | trivial)
    | (right; left; refine ⟨?_, ?_, ?_⟩ <;> first | omega | trivial)
    | (right; right; refine ⟨by omega, by omega, by omega, ?_⟩; intro x hx;
       rcases hx with h | h | h | h <;> omega)

theorem decodeRune_width_pos (b : Nat) (rest : GoString) :
    1 ≤ (xml.decodeRune (b :: rest)).2 := by
  rcases decodeRune_cons b rest with h | h | h <;> omega

theorem unescape_append_plain : ∀ (p t : GoString), (∀ x ∈ p, x ≠ 38) →
    xml.unescape none (p ++ t) = (xml.unescape none t).map (fun v => p ++ v)
  | [], t, _ => by simp
  | b :: p, t, h => by
    have hb : b ≠ 38 := h b (List.mem_cons_self _ _)
    rw [List.cons_append, xml.unescape, if_neg hb,
      unescape_append_plain p t (fun x hx => h x (List.mem_cons_of_mem _ hx))]
    simp [Function.comp_def]

theorem unescape_entities (t : GoString) :
    xml.unescape none (bytes "&#34;" ++ t) = (xml.unescape none t).map (fun v => [34] ++ v) ∧
    xml.unescape none (bytes "&#39;" ++ t) = (xml.unescape none t).map (fun v => [39] ++ v) ∧
    xml.unescape none (bytes "&amp;" ++ t) = (xml.unescape none t).map (fun v => [38] ++ v) ∧
    xml.unescape none (bytes "&lt;" ++ t) = (xml.unescape none t).map (fun v => [60] ++ v) ∧
    xml.unescape none (bytes "&gt;" ++ t) = (xml.unescape none t).map (fun v => [62] ++ v) ∧
    xml.unescape none (bytes "&#x9;" ++ t) = (xml.unescape none t).map (fun v => [9] ++ v) ∧
    xml.unescape none (bytes "&#xA;" ++ t) = (xml.unescape none t).map (fun v => [10] ++ v) ∧
    xml.unescape none (bytes "&#xD;" ++ t) = (xml.unescape none t).map (fun v => [13] ++ v) := by
  have e1 : bytes "&#34;" = [38, 35, 51, 52, 59] := by decide
  have e2 : bytes "&#39;" = [38, 35, 51, 57, 59] := by decide
  have e3 : bytes "&amp;" = [38, 97, 109, 112, 59] := by decide
  have e4 : bytes "&lt;" = [38, 108, 116, 59] := by decide
  have e5 : bytes "&gt;" = [38, 103, 116, 59] := by decide
  have e6 : bytes "&#x9;" = [38, 35, 120, 57, 59] := by decide
  have e7 : bytes "&#xA;" = [38, 35, 120, 65, 59] := by decide
  have e8 : bytes "&#xD;" = [38, 35, 120, 68, 59] := by decide
  have v1 : xml.entityValue [35, 51, 52] = some [34] := by decide
  have v2 : xml.entityValue [35, 51, 57] = some [39] := by decide
  have v3 : xml.entityValue [97, 109, 112] = some [38] := by decide
  have v4 : xml.entityValue [108, 116] = some [60] := by decide
  have v5 : xml.entityValue [103, 116] = some [62] := by decide
  have v6 : xml.entityValue [35, 120, 57] = some [9] := by decide
  have v7 : xml.entityValue [35, 120, 65] = some [10] := by decide
  have v8 : xml.entityValue [35, 120, 68] = some [13] := by decide
  rw [e1, e2, e3, e4, e5, e6, e7, e8]
  simp [xml.unescape, v1, v2, v3, v4, v5, v6, v7, v8]

theorem take_of_ascii_rune (b : Nat) (rest : GoString) (c : Nat) (hc : c < 0x80)
    (hr : (xml.decodeRune (b :: rest)).1 = c) :
    (b :: rest).take (xml.decodeRune (b :: rest)).2 = [c] := by
  rcases decodeRune_cons b rest with ⟨_, h2, h3⟩ | ⟨_, h2, _⟩ | ⟨h1, _⟩
  · rw [h3, ← hr, h2]
    rfl
  · omega
  · omega

/-- What the encoder writes for one rune is read back as the rune, or as
U+FFFD when XML cannot hold the rune, and holds no quote and no `<`. -/
theorem escapeRune_spec (b : Nat) (rest : GoString) :
    ∃ v, (xml.runeOk (b :: rest) = true → v = (b :: rest).take (xml.decodeRune (b :: rest)).2) ∧
      (∀ t, xml.unescape none (xml.escapeRune (b :: rest) ++ t)
        = (xml.unescape none t).map (fun u => v ++ u)) ∧
      (∀ x ∈ xml.escapeRune (b :: rest), x ≠ 34 ∧ x ≠ 60) := by
  generalize hp : xml.escapeRune (b :: rest) = piece
  unfold xml.escapeRune at hp
  simp only [] at hp
  split_ifs at hp with h1 h2 h3 h4 h5 h6 h7 h8 h9
  · subst hp
    exact ⟨[34], fun _ => (take_of_ascii_rune b rest 34 (by omega) h1).symm,
      fun t => (unescape_entities t).1, by decide⟩
  · subst hp
    exact ⟨[39], fun _ => (take_of_ascii_rune b rest 39 (by omega) h2).symm,
      fun t => (unescape_entities t).2.1, by decide⟩
  · subst hp
    exact ⟨[38], fun _ => (take_of_ascii_rune b rest 38 (by omega) h3).symm,
      fun t => (unescape_entities t).2.2.1, by decide⟩
  · subst hp
    exact ⟨[60], fun _ => (take_of_ascii_rune b rest 60 (by omega) h4).symm,
      fun t => (unescape_entities t).2.2.2.1, by decide⟩
  · subst hp
    exact ⟨[62], fun _ => (take_of_ascii_rune b rest 62 (by omega) h5).symm,
      fun t => (unescape_entities t).2.2.2.2.1, by decide⟩
  · subst hp
    exact ⟨[9], fun _ => (take_of_ascii_rune b rest 9 (by omega) h6).symm,
      fun t => (unescape_entities t).2.2.2.2.2.1, by decide⟩
  · subst hp
    exact ⟨[10], fun _ => (take_of_ascii_rune b rest 10 (by omega) h7).symm,
      fun t => (unescape_entities t).2.2.2.2.2.2.1, by decide⟩
  · subst hp
    exact ⟨[13], fun _ => (take_of_ascii_rune b rest 13 (by omega) h8).symm,
      fun t => (unescape_entities t).2.2.2.2.2.2.2, by decide⟩
  · subst hp
    have hclean : ∀ x ∈ (b :: rest).take (xml.decodeRune (b :: rest)).2,
        x ≠ 38 ∧ x ≠ 34 ∧ x ≠ 60 := by
      rcases decodeRune_cons b rest with ⟨_, k2, k3⟩ | ⟨_, k2, k3⟩ | ⟨_, _, _, k4⟩
      · intro x hx
        rw [k3] at hx
        simp only [List.take_succ_cons, List.take_zero, List.mem_singleton] at hx
        subst hx
        rw [k2] at h1 h3 h4
        exact ⟨h3, h1, h4⟩
      · exfalso
        unfold xml.runeOk at h9
        rw [k2, k3] at h9
        simp at h9
      · intro x hx
        have := k4 x hx
        omega
    exact ⟨_, fun _ => rfl,
      fun t => unescape_append_plain _ t (fun x hx => (hclean x hx).1),
      fun x hx => (hclean x hx).2⟩
  · subst hp
    exact ⟨[0xEF, 0xBF, 0xBD], fun hok => absurd hok h9,
      fun t => unescape_append_plain _ t (by decide), by decide⟩

/-- What the encoder writes for a text is read back as a text, the same text
when it is XML-representable, and holds no quote and no `<`. -/
theorem escapeFuel_spec : ∀ (fuel : Nat) (s : GoString),
    ∃ v, (s.length ≤ fuel → xml.representableFuel fuel s = true → v = s) ∧
      (∀ t, xml.unescape none (xml.escapeFuel fuel s ++ t)
        = (xml.unescape none t).map (fun u => v ++ u)) ∧
      (∀ x ∈ xml.escapeFuel fuel s, x ≠ 34 ∧ x ≠ 60)
  | 0, s => by
    refine ⟨[], fun hl _ => (List.length_eq_zero.1 (by omega)).symm, fun t => ?_, ?_⟩
    · simp [xml.escapeFuel]
    · simp [xml.escapeFuel]
  | fuel + 1, [] => by
    refine ⟨[], fun _ _ => rfl, fun t => ?_, ?_⟩
    · simp [xml.escapeFuel]
    · simp [xml.escapeFuel]
  | fuel + 1, b :: rest => by
    obtain ⟨v1, hv1, hu1, hc1⟩ := escapeRune_spec b rest
    obtain ⟨v2, hv2, hu2, hc2⟩ :=
      escapeFuel_spec fuel ((b :: rest).drop (xml.decodeRune (b :: rest)).2)
    have hw := decodeRune_width_pos b rest
    refine ⟨v1 ++ v2, fun hl hrep => ?_, fun t => ?_, fun x hx => ?_⟩
    · rw [xml.representableFuel, Bool.and_eq_true] at hrep
      rw [hv1 hrep.1, hv2 (by rw [List.length_drop, List.length_cons]; rw [List.length_cons] at hl; omega) hrep.2,
        List.take_append_drop]
    · rw [xml.escapeFuel, List.append_assoc, hu1, hu2]
      simp [Function.comp_def]
    · rw [xml.escapeFuel, List.mem_append] at hx
      rcases hx with hx | hx
      · exact hc1 x hx
      · exact hc2 x hx

theorem escapeText_spec (s : GoString) :
    ∃ v, (xml.Representable s → v = s) ∧
      (∀ t, xml.unescape none (xml.EscapeText s ++ t)
        = (xml.unescape none t).map (fun u => v ++ u)) ∧
      (∀ x ∈ xml.EscapeText s, x ≠ 34 ∧ x ≠ 60) := by
  obtain ⟨v, hv, hu, hc⟩ := escapeFuel_spec s.length s
  exact ⟨v, fun h => hv (le_refl _) h, hu, hc⟩

/-! ### The XML layer: tags and content -/

theorem takeWhile_append_stop (p : Nat → Bool) (c : Nat) (X : GoString) :
    ∀ (a : GoString), (∀ x ∈ a, p x = true) → p c = false → (a ++ c :: X).takeWhile p = a
  | [], _, hc => by simp [List.takeWhile_cons, hc]
  | b :: a, ha, hc => by
    have hb : p b = true := ha b (List.mem_cons_self _ _)
    rw [List.cons_append, List.takeWhile_cons, hb]
    simp only [if_true]
    rw [takeWhile_append_stop p c X a (fun x hx => ha x (List.mem_cons_of_mem _ hx)) hc]

theorem dropWhile_append_stop (p : Nat → Bool) (c : Nat) (X : GoString) :
    ∀ (a : GoString), (∀ x ∈ a, p x = true) → p c = false → (a ++ c :: X).dropWhile p = c :: X
  | [], _, hc => by simp [List.dropWhile_cons, hc]
  | b :: a, ha, hc => by
    have hb : p b = true := ha b (List.mem_cons_self _ _)
    rw [List.cons_append, List.dropWhile_cons, hb]
    simp only [if_true]
    rw [dropWhile_append_stop p c X a (fun x hx => ha x (List.mem_cons_of_mem _ hx)) hc]

theorem parseAttrs_close (X : GoString) : ∀ (n : Nat), 1 ≤ n →
    xml.parseAttrs n (62 :: X) = some ([], false, X)
  | 0, h => by omega
  | n + 1, _ => by
    have hs : xml.isSpaceByte 62 = false := by decide
    simp [xml.parseAttrs, List.dropWhile_cons, hs]

/-- A start tag with one attribute in double quotes. -/
theorem parseAttrs_one (name esc v X : GoString) (hne : name ≠ [])
    (hname : ∀ x ∈ name, xml.isNameByte x = true)
    (hesc : ∀ x ∈ esc, x ≠ 34 ∧ x ≠ 60) (hv : xml.unescape none esc = some v) :
    ∀ (n : Nat), 2 ≤ n →
      xml.parseAttrs n (32 :: (name ++ 61 :: 34 :: (esc ++ 34 :: 62 :: X)))
        = some ([(name, v)], false, X)
  | 0, h => by omega
  | 1, h => by omega
  | n + 2, _ => by
    obtain ⟨n0, name1, rfl⟩ : ∃ n0 name1, name = n0 :: name1 := by
      cases name with
      | nil => exact absurd rfl hne
      | cons a l => exact ⟨a, l, rfl⟩
    have hn0 : xml.isNameByte n0 = true := hname n0 (List.mem_cons_self _ _)
    have hsp : xml.isSpaceByte n0 = false := by
      unfold xml.isNameByte at hn0
      unfold xml.isSpaceByte
      simp only [Bool.or_eq_true, Bool.and_eq_true, decide_eq_true_eq] at hn0
      simp only [Bool.or_eq_false_iff, decide_eq_false_iff_not]
      omega
    have h62 : n0 ≠ 62 := by
      intro h
      rw [h] at hn0
      exact absurd hn0 (by decide)
    have h47 : n0 ≠ 47 := by
      intro h
      rw [h] at hn0
      exact absurd hn0 (by decide)
    have hs32 : xml.isSpaceByte 32 = true := by decide
    have hs61 : xml.isSpaceByte 61 = false := by decide
    have hs34 : xml.isSpaceByte 34 = false := by decide
    have hn61 : xml.isNameByte 61 = false := by decide
    have htw : ((n0 :: name1) ++ 61 :: 34 :: (esc ++ 34 :: 62 :: X)).takeWhile xml.isNameByte
        = n0 :: name1 := takeWhile_append_stop _ _ _ _ hname hn61
    have hdw : ((n0 :: name1) ++ 61 :: 34 :: (esc ++ 34 :: 62 :: X)).dropWhile xml.isNameByte
        = 61 :: 34 :: (esc ++ 34 :: 62 :: X) := dropWhile_append_stop _ _ _ _ hname hn61
    have hq : ∀ x ∈ esc, (fun c => c != 34) x = true := by
      intro x hx
      simpa using (hesc x hx).1
    have htq : (esc ++ 34 :: 62 :: X).takeWhile (fun c => c != 34) = esc :=
      takeWhile_append_stop _ _ _ _ hq (by simp)
    have hdq : (esc ++ 34 :: 62 :: X).dropWhile (fun c => c != 34) = 34 :: 62 :: X :=
      dropWhile_append_stop _ _ _ _ hq (by simp)
    have h60 : 60 ∉ esc := fun h => (hesc 60 h).2 rfl
    rw [List.cons_append] at htw hdw
    rw [xml.parseAttrs]
    simp only [List.cons_append, List.dropWhile_cons, hs32, hsp, hs61, hs34, if_true,
      Bool.false_eq_true, if_false, h62, h47, htw, hdw, htq, hdq, h60, hv,
      parseAttrs_close X (n + 1) (by omega), true_or, reduceCtorEq]

theorem parseContent_end (name X : GoString) (hname : ∀ x ∈ name, xml.isNameByte x = true)
    (fuel : Nat) :
    xml.parseContent (fuel + 1) name (60 :: 47 :: (name ++ 62 :: X)) = some ([], X) := by
  have hn62 : xml.isNameByte 62 = false := by decide
  have hs62 : xml.isSpaceByte 62 = false := by decide
  rw [xml.parseContent]
  simp [takeWhile_append_stop _ _ _ _ hname hn62, dropWhile_append_stop _ _ _ _ hname hn62,
    List.dropWhile_cons, hs62]

theorem parseContent_text (name txt v Y : GoString) (hne : txt ≠ [])
    (h60 : ∀ x ∈ txt, x ≠ 60) (hv : xml.unescape none txt = some v) (fuel : Nat) :
    xml.parseContent (fuel + 1) name (txt ++ 60 :: Y)
      = (xml.parseContent fuel name (60 :: Y)).map (fun p => (xml.Node.text v :: p.1, p.2)) := by
  obtain ⟨b, txt1, rfl⟩ : ∃ b txt1, txt = b :: txt1 := by
    cases txt with
    | nil => exact absurd rfl hne
    | cons a l => exact ⟨a, l, rfl⟩
  have hb : b ≠ 60 := h60 b (List.mem_cons_self _ _)
  have hq : ∀ x ∈ b :: txt1, (fun c => c != 60) x = true := by
    intro x hx
    simpa using h60 x hx
  have htw : ((b :: txt1) ++ 60 :: Y).takeWhile (fun c => c != 60) = b :: txt1 :=
    takeWhile_append_stop _ _ _ _ hq (by simp)
  have hdw : ((b :: txt1) ++ 60 :: Y).dropWhile (fun c => c != 60) = 60 :: Y :=
    dropWhile_append_stop _ _ _ _ hq (by simp)
  rw [List.cons_append] at htw hdw
  rw [List.cons_append, xml.parseContent.eq_def]
  simp only [hb, if_false, htw, hdw, hv]
  cases xml.parseContent fuel name (60 :: Y) with
  | none => rfl
  | some p => rfl

theorem parseContent_elem (name s s3 : GoString) (x : xml.Node) (fuel : Nat)
    (hx : xml.parseElement fuel s = some (x, s3)) (c : Nat) (s2 : GoString)
    (hs : s = c :: s2) (hc : c ≠ 47) :
    xml.parseContent (fuel + 1) name (60 :: s)
      = (xml.parseContent fuel name s3).map (fun p => (x :: p.1, p.2)) := by
  subst hs
  rw [xml.parseContent]
  simp only [if_true, hc, if_false, hx]
  cases xml.parseContent fuel name s3 with
  | none => rfl
  | some p => rfl

theorem parseElement_open (name after rest : GoString) (attrs : List (GoString × GoString))
    (hne : name ≠ []) (htw : (name ++ after).takeWhile xml.isNameByte = name)
    (hdw : (name ++ after).dropWhile xml.isNameByte = after)
    (hattrs : xml.parseAttrs (name ++ after).length after = some (attrs, false, rest))
    (fuel : Nat) :
    xml.parseElement (fuel + 1) (name ++ after)
      = (xml.parseContent fuel name rest).map (fun p => (xml.Node.elem name attrs p.1, p.2)) := by
  rw [xml.parseElement]
  simp only [htw, hdw, hne, if_false, hattrs]
  cases xml.parseContent fuel name rest with
  | none => rfl
  | some p => rfl

theorem parseElement_plain (name X : GoString) (hne : name ≠ [])
    (hname : ∀ x ∈ name, xml.isNameByte x = true) (fuel : Nat) :
    xml.parseElement (fuel + 1) (name ++ 62 :: X)
      = (xml.parseContent fuel name X).map (fun p => (xml.Node.elem name [] p.1, p.2)) := by
  have hn62 : xml.isNameByte 62 = false := by decide
  apply parseElement_open name (62 :: X) X [] hne
    (takeWhile_append_stop _ _ _ _ hname hn62) (dropWhile_append_stop _ _ _ _ hname hn62)
  exact parseAttrs_close X _ (by simp; omega)

theorem parseElement_attr (name an esc v X : GoString) (hne : name ≠ [])
    (hname : ∀ x ∈ name, xml.isNameByte x = true) (hane : an ≠ [])
    (haname : ∀ x ∈ an, xml.isNameByte x = true)
    (hesc : ∀ x ∈ esc, x ≠ 34 ∧ x ≠ 60) (hv : xml.unescape none esc = some v) (fuel : Nat) :
    xml.parseElement (fuel + 1) (name ++ 32 :: (an ++ 61 :: 34 :: (esc ++ 34 :: 62 :: X)))
      = (xml.parseContent fuel name X).map
          (fun p => (xml.Node.elem name [(an, v)] p.1, p.2)) := by
  have hn32 : xml.isNameByte 32 = false := by decide
  apply parseElement_open name _ X [(an, v)] hne
    (takeWhile_append_stop _ _ _ _ hname hn32) (dropWhile_append_stop _ _ _ _ hname hn32)
  exact parseAttrs_one an esc v X hane haname hesc hv _ (by simp; omega)

theorem toOutlines_append : ∀ (xs ys : List xml.Node),
    xml.toOutlines (xs ++ ys) = xml.toOutlines xs ++ xml.toOutlines ys
  | [], ys => by simp [xml.toOutlines]
  | x :: xs, ys => by
    rw [List.cons_append, xml.toOutlines, xml.toOutlines, toOutlines_append xs ys]
    cases xml.toOutline x with
    | none => rfl
    | some o => rfl

theorem unescape_escapeText (s : GoString) :
    ∃ v, (xml.Representable s → v = s) ∧ xml.unescape none (xml.EscapeText s) = some v ∧
      (∀ x ∈ xml.EscapeText s, x ≠ 34 ∧ x ≠ 60) := by
  obtain ⟨v, hv, hu, hc⟩ := escapeText_spec s
  refine ⟨v, hv, ?_, hc⟩
  have h := hu []
  simpa [xml.unescape] using h

theorem newline_plain (k : Nat) :
    xml.newline k ≠ [] ∧ (∀ x ∈ xml.newline k, x ≠ 60) ∧
      xml.unescape none (xml.newline k) = some (xml.newline k) := by
  have hmem : ∀ x ∈ xml.newline k, x = 10 ∨ x = 32 := by
    intro x hx
    unfold xml.newline at hx
    rcases List.mem_cons.1 hx with h | h
    · exact Or.inl h
    · exact Or.inr (List.eq_of_mem_replicate h)
  refine ⟨by simp [xml.newline], fun x hx => by rcases hmem x hx with h | h <;> omega, ?_⟩
  have h := unescape_append_plain (xml.newline k) []
    (fun x hx => by rcases hmem x hx with h | h <;> omega)
  simpa [xml.unescape] using h

theorem encodeOutline_append (t : GoString) (ch : List Outline) (k : Nat) (rest : GoString) :
    xml.encodeOutline (.mk t ch) k ++ rest
      = 60 :: (bytes "outline" ++ 32 :: (bytes "text" ++ 61 :: 34 :: (xml.EscapeText t
          ++ 34 :: 62 :: (xml.encodeOutlines ch (k + 1)
            ++ (xml.closing ch k ++ 60 :: 47 :: (bytes "outline" ++ 62 :: rest)))))) := by
  have e1 : bytes "<outline text=\"" = 60 :: (bytes "outline" ++ 32 :: (bytes "text" ++ [61, 34])) := by
    decide
  have e2 : bytes "\">" = [34, 62] := by decide
  have e3 : bytes "</outline>" = 60 :: 47 :: (bytes "outline" ++ [62]) := by decide
  simp only [xml.encodeOutline, e1, e2, e3, List.append_assoc, List.cons_append,
    List.nil_append]

theorem encodeOutline_length (o : Outline) (k : Nat) : 2 ≤ (xml.encodeOutline o k).length := by
  cases o with
  | mk t ch =>
    have h := encodeOutline_append t ch k []
    rw [List.append_nil] at h
    rw [h]
    simp only [List.length_cons, List.length_append]
    omega

theorem attr_single (name v : GoString) : xml.attr name [(name, v)] = v := by
  simp [xml.attr]

mutual
/-- The decoder reads the encoding of a node with XML-representable labels
back as the node. -/
theorem parse_encodeOutline (o : Outline) (k d : Nat)
    (hrep : ∀ l ∈ (preorder o d).map Prod.snd, xml.Representable l) (fuel : Nat)
    (rest : GoString) (hlen : (xml.encodeOutline o k ++ rest).length ≤ fuel + 1) :
    ∃ x, xml.toOutline x = some o ∧
      xml.parseElement fuel (xml.encodeOutline o k ++ rest).tail = some (x, rest) :=
  match o with
  | .mk t ch => by
    have hN : ∀ x ∈ bytes "outline", xml.isNameByte x = true := by decide
    have hT : ∀ x ∈ bytes "text", xml.isNameByte x = true := by decide
    obtain ⟨v, hv, hu, hc⟩ := unescape_escapeText t
    have hvt : v = t := hv (hrep t (by simp [preorder]))
    subst hvt
    rw [encodeOutline_append] at hlen ⊢
    rw [List.tail_cons]
    simp only [List.length_cons, List.length_append] at hlen
    obtain ⟨f, rfl⟩ : ∃ f, fuel = f + 1 := ⟨fuel - 1, by omega⟩
    rw [parseElement_attr _ _ _ v _ (by decide) hN (by decide) hT hc hu]
    obtain ⟨xs, f1, hf1, hxs, hparse⟩ := parse_encodeOutlines ch (k + 1) (d + 1)
      (fun l hl => hrep l (by
        rw [preorder, List.map_cons]
        exact List.mem_cons_of_mem _ hl))
      (bytes "outline") f
      (xml.closing ch k ++ 60 :: 47 :: (bytes "outline" ++ 62 :: rest))
      (by simp only [List.length_cons, List.length_append]; omega)
    rw [hparse]
    cases ch with
    | nil =>
      simp only [xml.closing, List.nil_append, List.length_cons, List.length_append] at hf1 ⊢
      obtain ⟨g, rfl⟩ : ∃ g, f1 = g + 1 := ⟨f1 - 1, by omega⟩
      rw [parseContent_end _ _ hN]
      refine ⟨_, ?_, rfl⟩
      simp [xml.toOutline, attr_single, hxs]
    | cons c cs =>
      obtain ⟨hn1, hn2, hn3⟩ := newline_plain k
      simp only [xml.closing, List.length_cons, List.length_append] at hf1 ⊢
      have hnl : 0 < (xml.newline k).length := List.length_pos.2 hn1
      obtain ⟨g, rfl⟩ : ∃ g, f1 = g + 2 := ⟨f1 - 2, by omega⟩
      rw [parseContent_text _ _ _ _ hn1 hn2 hn3, parseContent_end _ _ hN]
      refine ⟨_, ?_, rfl⟩
      simp [xml.toOutline, attr_single, toOutlines_append, hxs, xml.toOutlines]
/-- The decoder reads the encodings of a sequence of nodes, each on a line of
its own, back as the nodes, and goes on with the text behind them. -/
theorem parse_encodeOutlines (cs : List Outline) (k d : Nat)
    (hrep : ∀ l ∈ (preorderList cs d).map Prod.snd, xml.Representable l) (name : GoString)
    (fuel : Nat) (tail : GoString) (hlen : (xml.encodeOutlines cs k ++ tail).length ≤ fuel) :
    ∃ xs fuel1, tail.length ≤ fuel1 ∧ xml.toOutlines xs = cs ∧
      xml.parseContent fuel name (xml.encodeOutlines cs k ++ tail)
        = (xml.parseContent fuel1 name tail).map (fun p => (xs ++ p.1, p.2)) :=
  match cs with
  | [] => by
    refine ⟨[], fuel, by simpa [xml.encodeOutlines] using hlen, by simp [xml.toOutlines], ?_⟩
    simp [xml.encodeOutlines]
  | c :: cs => by
    obtain ⟨hn1, hn2, hn3⟩ := newline_plain k
    have hnl : 0 < (xml.newline k).length := List.length_pos.2 hn1
    rw [xml.encodeOutlines, List.append_assoc, List.append_assoc] at hlen ⊢
    have hform : ∃ body, xml.encodeOutline c k ++ (xml.encodeOutlines cs k ++ tail)
        = 60 :: 111 :: body := by
      cases c with
      | mk t ch =>
        rw [encodeOutline_append]
        have e : bytes "outline" = 111 :: bytes "utline" := by decide
        rw [e]
        exact ⟨_, rfl⟩
    obtain ⟨body, hbody⟩ := hform
    have hlen2 := hlen
    rw [List.length_append] at hlen2
    obtain ⟨x, hx, hpx⟩ := parse_encodeOutline c k d
      (fun l hl => hrep l (by
        rw [preorderList, List.map_append]
        exact List.mem_append_left _ hl))
      (fuel - 2) (xml.encodeOutlines cs k ++ tail) (by omega)
    obtain ⟨xs, f1, hf1, hxs, hparse⟩ := parse_encodeOutlines cs k d
      (fun l hl => hrep l (by
        rw [preorderList, List.map_append]
        exact List.mem_append_right _ hl))
      name (fuel - 2) tail (by
        have he := encodeOutline_length c k
        rw [List.length_append] at hlen2
        omega)
    rw [hbody, List.tail_cons] at hpx
    rw [hbody] at hlen2 ⊢
    simp only [List.length_cons] at hlen2
    obtain ⟨g, hg⟩ : ∃ g, fuel = g + 2 := ⟨fuel - 2, by omega⟩
    subst hg
    simp only [Nat.add_sub_cancel] at hpx hparse
    rw [parseContent_text _ _ _ _ hn1 hn2 hn3,
      parseContent_elem _ _ _ x _ hpx 111 body rfl (by omega),
      hparse]
    refine ⟨xml.Node.text (xml.newline k) :: x :: xs, f1, hf1, ?_, ?_⟩
    · simp [xml.toOutlines, xml.toOutline, hx, hxs]
    · cases xml.parseContent f1 name tail with
      | none => rfl
      | some p => rfl
end

/-! ### The XML layer: the document -/

/-- An element that holds text only, as the title. -/
theorem parse_text_element (name esc v C : GoString)
    (hname : ∀ x ∈ name, xml.isNameByte x = true) (h60 : ∀ x ∈ esc, x ≠ 60)
    (hv : xml.unescape none esc = some v) (fuel : Nat) :
    ∃ tch, xml.parseContent (fuel + 2) name (esc ++ 60 :: 47 :: (name ++ 62 :: C))
      = some (tch, C) := by
  by_cases he : esc = []
  · subst he
    exact ⟨[], parseContent_end name C hname (fuel + 1)⟩
  · refine ⟨[xml.Node.text v], ?_⟩
    rw [parseContent_text _ _ _ _ he h60 hv, parseContent_end name C hname fuel]
    rfl

/-- The element `head` as the encoder writes it. -/
theorem parse_head (escT : GoString) (C : GoString) (h60 : ∀ x ∈ escT, x ≠ 60)
    (vT : GoString) (hv : xml.unescape none escT = some vT) (fuel : Nat) :
    ∃ hch, xml.parseElement (fuel + 7)
        (bytes "head" ++ 62 :: (xml.newline 2 ++ 60 :: (bytes "title" ++ 62 :: (escT
          ++ 60 :: 47 :: (bytes "title" ++ 62 :: (xml.newline 1
            ++ 60 :: 47 :: (bytes "head" ++ 62 :: C)))))))
      = some (xml.Node.elem (bytes "head") [] hch, C) := by
  have hH : ∀ x ∈ bytes "head", xml.isNameByte x = true := by decide
  have hTi : ∀ x ∈ bytes "title", xml.isNameByte x = true := by decide
  obtain ⟨a1, a2, a3⟩ := newline_plain 1
  obtain ⟨b1, b2, b3⟩ := newline_plain 2
  obtain ⟨tch, htch⟩ := parse_text_element (bytes "title") escT vT
    (xml.newline 1 ++ 60 :: 47 :: (bytes "head" ++ 62 :: C)) hTi h60 hv (fuel + 1)
  have htitle : xml.parseElement (fuel + 4) (bytes "title" ++ 62 :: (escT
      ++ 60 :: 47 :: (bytes "title" ++ 62 :: (xml.newline 1
        ++ 60 :: 47 :: (bytes "head" ++ 62 :: C)))))
      = some (xml.Node.elem (bytes "title") [] tch,
          xml.newline 1 ++ 60 :: 47 :: (bytes "head" ++ 62 :: C)) := by
    rw [parseElement_plain _ _ (by decide) hTi, htch]
    rfl
  refine ⟨[xml.Node.text (xml.newline 2), xml.Node.elem (bytes "title") [] tch,
    xml.Node.text (xml.newline 1)], ?_⟩
  rw [parseElement_plain _ _ (by decide) hH, parseContent_text _ _ _ _ b1 b2 b3,
    parseContent_elem _ _ _ _ _ htitle 116 _ rfl (by omega),
    parseContent_text _ _ _ _ a1 a2 a3, parseContent_end _ _ hH]
  rfl

/-- The element `body` as the encoder writes it. -/
theorem parse_body (F : List Outline) (hrep : ∀ l ∈ labels F, xml.Representable l)
    (C : GoString) (fuel : Nat)
    (hlen : (xml.encodeOutlines F 2 ++ (xml.closing F 1
      ++ 60 :: 47 :: (bytes "body" ++ 62 :: C))).length ≤ fuel) :
    ∃ bch, xml.toOutlines bch = F ∧
      xml.parseElement (fuel + 1) (bytes "body" ++ 62 :: (xml.encodeOutlines F 2
        ++ (xml.closing F 1 ++ 60 :: 47 :: (bytes "body" ++ 62 :: C))))
      = some (xml.Node.elem (bytes "body") [] bch, C) := by
  have hB : ∀ x ∈ bytes "body", xml.isNameByte x = true := by decide
  obtain ⟨xs, f1, hf1, hxs, hparse⟩ := parse_encodeOutlines F 2 1 hrep (bytes "body") fuel
    (xml.closing F 1 ++ 60 :: 47 :: (bytes "body" ++ 62 :: C)) hlen
  rw [parseElement_plain _ _ (by decide) hB, hparse]
  cases F with
  | nil =>
    simp only [xml.closing, List.nil_append, List.length_cons, List.length_append] at hf1 ⊢
    obtain ⟨g, rfl⟩ : ∃ g, f1 = g + 1 := ⟨f1 - 1, by omega⟩
    rw [parseContent_end _ _ hB]
    exact ⟨xs ++ [], by simpa using hxs, rfl⟩
  | cons c cs =>
    obtain ⟨hn1, hn2, hn3⟩ := newline_plain 1
    simp only [xml.closing, List.length_cons, List.length_append] at hf1 ⊢
    have hnl : 0 < (xml.newline 1).length := List.length_pos.2 hn1
    obtain ⟨g, rfl⟩ : ∃ g, f1 = g + 2 := ⟨f1 - 2, by omega⟩
    rw [parseContent_text _ _ _ _ hn1 hn2 hn3, parseContent_end _ _ hB]
    refine ⟨xs ++ [xml.Node.text (xml.newline 1)], ?_, rfl⟩
    rw [toOutlines_append, hxs]
    simp [xml.toOutlines, xml.toOutline]

theorem encodeOPML_eq (opml : OPML) :
    xml.encodeOPML opml
      =
        60 :: (bytes "opml" ++ 32 :: (bytes "version" ++ 61 :: 34 :: (xml.EscapeText
          opml.Version ++ 34 :: 62 :: (xml.newline 1 ++ 60 :: (bytes "head" ++ 62 ::
          (xml.newline 2 ++ 60 :: (bytes "title" ++ 62 :: (xml.EscapeText opml.Head.Title ++ 60
          :: 47 :: (bytes "title" ++ 62 :: (xml.newline 1 ++ 60 :: 47 :: (bytes "head" ++ 62 ::
          (xml.newline 1 ++ 60 :: (bytes "body" ++ 62 :: (xml.encodeOutlines opml.Body.Outline 2
          ++ (xml.closing opml.Body.Outline 1 ++ 60 :: 47 :: (bytes "body" ++ 62 :: (xml.newline
          0 ++ 60 :: 47 :: (bytes "opml" ++ 62 :: [])))))))))))))))))) := by
  have e1 : bytes "<opml version=\"" = 60 :: (bytes "opml" ++ 32 :: (bytes "version" ++ [61, 34])) := by
    decide
  have e2 : bytes "\">" = [34, 62] := by decide
  have e3 : bytes "<head>" = 60 :: (bytes "head" ++ [62]) := by decide
  have e4 : bytes "<title>" = 60 :: (bytes "title" ++ [62]) := by decide
  have e5 : bytes "</title>" = 60 :: 47 :: (bytes "title" ++ [62]) := by decide
  have e6 : bytes "</head>" = 60 :: 47 :: (bytes "head" ++ [62]) := by decide
  have e7 : bytes "<body>" = 60 :: (bytes "body" ++ [62]) := by decide
  have e8 : bytes "</body>" = 60 :: 47 :: (bytes "body" ++ [62]) := by decide
  have e9 : bytes "</opml>" = 60 :: 47 :: (bytes "opml" ++ [62]) := by decide
  simp only [xml.encodeOPML, e1, e2, e3, e4, e5, e6, e7, e8, e9, List.append_assoc,
    List.cons_append, List.nil_append]

/-- The decoder reads the document the encoder writes back with the same
body, when the labels are XML-representable. -/
theorem decode_encode (opml : OPML) (hrep : ∀ l ∈ labels opml.Body.Outline, xml.Representable l) :
    ∃ r, xml.decodeOPML (xml.encodeOPML opml) = some r ∧ r.Body = opml.Body := by
  have hO : ∀ x ∈ bytes "opml", xml.isNameByte x = true := by decide
  have hV : ∀ x ∈ bytes "version", xml.isNameByte x = true := by decide
  obtain ⟨a1, a2, a3⟩ := newline_plain 1
  obtain ⟨c1, c2, c3⟩ := newline_plain 0
  obtain ⟨vV, _, huV, hcV⟩ := unescape_escapeText opml.Version
  obtain ⟨vT, _, huT, hcT⟩ := unescape_escapeText opml.Head.Title
  unfold xml.decodeOPML
  rw [encodeOPML_eq]
  simp only [List.dropWhile_cons, bne_self_eq_false, Bool.false_eq_true, if_false]
  generalize hs : List.length
      (bytes "opml" ++ 32 :: (bytes "version" ++ 61 :: 34 :: (xml.EscapeText opml.Version ++ 34
        :: 62 :: (xml.newline 1 ++ 60 :: (bytes "head" ++ 62 :: (xml.newline 2 ++ 60 :: (bytes
        "title" ++ 62 :: (xml.EscapeText opml.Head.Title ++ 60 :: 47 :: (bytes "title" ++ 62 ::
        (xml.newline 1 ++ 60 :: 47 :: (bytes "head" ++ 62 :: (xml.newline 1 ++ 60 :: (bytes
        "body" ++ 62 :: (xml.encodeOutlines opml.Body.Outline 2 ++ (xml.closing
        opml.Body.Outline 1 ++ 60 :: 47 :: (bytes "body" ++ 62 :: (xml.newline 0 ++ 60 :: 47 ::
        (bytes "opml" ++ 62 :: [])))))))))))))))))) = n
  have hn := hs
  simp only [List.length_cons, List.length_append] at hn
  obtain ⟨fuel, rfl⟩ : ∃ fuel, n = fuel + 14 := ⟨n - 14, by omega⟩
  obtain ⟨hch, hhead⟩ := parse_head (xml.EscapeText opml.Head.Title)
    (xml.newline 1 ++ 60 :: (bytes "body" ++ 62 :: (xml.encodeOutlines opml.Body.Outline 2 ++
      (xml.closing opml.Body.Outline 1 ++ 60 :: 47 :: (bytes "body" ++ 62 :: (xml.newline 0 ++
      60 :: 47 :: (bytes "opml" ++ 62 :: [])))))))
    (fun x hx => (hcT x hx).2) vT huT (fuel + 4)
  obtain ⟨bch, hbch, hbody⟩ := parse_body opml.Body.Outline hrep
    (xml.newline 0 ++ 60 :: 47 :: (bytes "opml" ++ 62 :: [])) (fuel + 8)
    (by simp only [List.length_cons, List.length_append]; omega)
  rw [parseElement_attr _ _ _ vV _ (by decide) hO (by decide) hV hcV huV,
    parseContent_text _ _ _ _ a1 a2 a3,
    parseContent_elem _ _ _ _ _ hhead 104 _ rfl (by omega),
    parseContent_text _ _ _ _ a1 a2 a3,
    parseContent_elem _ _ _ _ _ hbody 98 _ rfl (by omega),
    parseContent_text _ _ _ _ c1 c2 c3, parseContent_end _ _ hO]
  refine ⟨_, rfl, ?_⟩
  have n1 : bytes "body" ≠ bytes "head" := by decide
  simp [xml.fillOPML, n1, hbch]

/-! ### Placement for the level the code computes -/

/-- Placement for the level the code computes: when `plantUMLToOPML` returns,
the nodes of the body, listed in pre-order with children in stored order, are
the content lines in input order; the node of the i-th content line, for which
the code computes the level `L_i = strings.Count(line, "*")`, has depth
`d_i = min (L_i, d_(i-1) + 1)` with `d_0 = 0`, its label is the title of the
line, and its parent is the most recent earlier node at depth `d_i - 1` (the
synthetic root when `d_i = 1`). The input `* a`, `*** b`, `* c` yields the
top-level items `a` and `c`, `b` the only child of `a`, `c` a leaf. -/
theorem placement_by_level (s : GoString) (doc : OPML) (h : plantUMLToOPML s = some doc) :
    nodesList doc.Body.Outline 0 none 1
      = annotate [] ((depths 0 ((contentLines s).map levelOf)).zip
          ((contentLines s).map titleOf))
    ∧ plantUMLToOPML (bytes "* a\n*** b\n* c")
      = some (document (.mk [] [.mk (bytes "a") [.mk (bytes "b") []], .mk (bytes "c") []])) := by
  constructor
  · rw [nodesList_annotate doc.Body.Outline [] 0 none 0 rfl rfl, (plantUMLToOPML_some h).2.2.2,
      items_fst, items_snd]
  · decide

/-- An instance of `placement_by_level`: a document with a depth gap, a
repeated marker count and a step back; `b` is placed under `a`, `c` under `b`,
`d` under `a`. -/
theorem placement_by_level_example :
    plantUMLToOPML (bytes "* a\n*** b\n*** c\n** d")
      = some (document (.mk [] [.mk (bytes "a")
          [.mk (bytes "b") [.mk (bytes "c") []], .mk (bytes "d") []]])) ∧
    nodesList (document (.mk [] [.mk (bytes "a")
          [.mk (bytes "b") [.mk (bytes "c") []], .mk (bytes "d") []]])).Body.Outline 0 none 1
      = annotate [] ((depths 0 ((contentLines (bytes "* a\n*** b\n*** c\n** d")).map levelOf)).zip
          ((contentLines (bytes "* a\n*** b\n*** c\n** d")).map titleOf)) ∧
    annotate [] ((depths 0 ((contentLines (bytes "* a\n*** b\n*** c\n** d")).map levelOf)).zip
          ((contentLines (bytes "* a\n*** b\n*** c\n** d")).map titleOf))
      = [(1, none, bytes "a"), (2, some 0, bytes "b"), (3, some 1, bytes "c"),
          (2, some 0, bytes "d")] :=
  ⟨by decide,
   (placement_by_level (bytes "* a\n*** b\n*** c\n** d")
    (document (.mk [] [.mk (bytes "a")
      [.mk (bytes "b") [.mk (bytes "c") []], .mk (bytes "d") []]])) (by decide)).1,
   by decide⟩

/-- Placement for the marker count of the specification, on the inputs where
the two counts agree: when every `*` of every content line is a leading one,
the nodes of the body are placed at the depths `d_i = min (L_i, d_(i-1) + 1)`
for `L_i` the number of leading markers. -/
theorem placement_by_leading_markers (s : GoString) (doc : OPML)
    (h : plantUMLToOPML s = some doc)
    (hlead : ∀ line ∈ contentLines s, levelOf line = leadingMarkers line) :
    nodesList doc.Body.Outline 0 none 1
      = annotate [] ((depths 0 ((contentLines s).map leadingMarkers)).zip
          ((contentLines s).map titleOf)) := by
  rw [(placement_by_level s doc h).1, List.map_congr_left hlead]

/-- An instance of `placement_by_leading_markers`: the depth-gap example of
the specification. -/
theorem placement_by_leading_markers_example :
    nodesList (document (.mk [] [.mk (bytes "a") [.mk (bytes "b") []],
        .mk (bytes "c") []])).Body.Outline 0 none 1
      = annotate [] ((depths 0 ((contentLines (bytes "* a\n*** b\n* c")).map leadingMarkers)).zip
          ((contentLines (bytes "* a\n*** b\n* c")).map titleOf)) :=
  placement_by_leading_markers (bytes "* a\n*** b\n* c")
    (document (.mk [] [.mk (bytes "a") [.mk (bytes "b") []], .mk (bytes "c") []]))
    (by decide) (by decide)

/-! ## The claims -/

/-- C1 (the code departs from it). Marker-text parsing is claimed never to
fail. On the input `hello`, a line without marker, `level` is 0, the stack is
cut to `stack[:0]` and `stack[len(stack)-1]` is an index out of range: the
function panics. -/
theorem plantUMLToOPML_panics_without_marker : plantUMLToOPML (bytes "hello") = none := by
  decide

/-- C2 (the code departs from it). The node of a content line of marker count
`L_i` is claimed to be placed at depth `d_i = min (L_i, d_(i-1) + 1)`. In the
input `* a`, `* b*` both content lines have one marker, so the rule places `a`
and `b*` at depth 1, both under the synthetic root. The code takes
`strings.Count(line, "*")`, which counts every `*` of the line: the level of
`* b*` is 2, and `b*` is placed at depth 2 as the child of `a`. -/
theorem placement_counts_every_marker :
    (contentLines (bytes "* a\n* b*")).map leadingMarkers = [1, 1] ∧
    annotate [] ((depths 0 ((contentLines (bytes "* a\n* b*")).map leadingMarkers)).zip
        ((contentLines (bytes "* a\n* b*")).map titleOf))
      = [(1, none, bytes "a"), (1, none, bytes "b*")] ∧
    (contentLines (bytes "* a\n* b*")).map levelOf = [1, 2] ∧
    plantUMLToOPML (bytes "* a\n* b*")
      = some (document (.mk [] [.mk (bytes "a") [.mk (bytes "b*") []]])) ∧
    nodesList (document (.mk [] [.mk (bytes "a") [.mk (bytes "b*") []]])).Body.Outline 0 none 1
      = [(1, none, bytes "a"), (2, some 0, bytes "b*")] := by
  decide

/-- C3 (the code departs from it). The level is claimed to be the number of
leading markers and the label the rest of the line. The code takes
`strings.Count(line, "*")`, which counts every `*` of the line: for the line
`*b*c` the level is 2 and the title `*c`, so `* a`, `*b*c` parses to `a` with
the single child `*c` instead of the two top-level items `a` and `b*c`. -/
theorem level_counts_every_marker :
    levelOf (bytes "*b*c") = 2 ∧ titleOf (bytes "*b*c") = bytes "*c" ∧
    plantUMLToOPML (bytes "* a\n*b*c")
      = some (document (.mk [] [.mk (bytes "a") [.mk (bytes "*c") []]])) := by
  decide

/-- C8. Detector rule: `detectFileType c` is `plantuml` exactly when `c`
without its leading white space starts with `@startmindmap`; otherwise it is
`opml` exactly when `c` contains `<opml`; otherwise it is `unknown`. The
first rule wins, and the three examples of the specification are classified
as stated. -/
theorem detectFileType_rule (c : GoString) :
    (detectFileType c = bytes "plantuml"
      ↔ strings.HasPrefix (strings.TrimLeftSpace c) (bytes "@startmindmap") = true) ∧
    (detectFileType c = bytes "opml"
      ↔ strings.HasPrefix (strings.TrimLeftSpace c) (bytes "@startmindmap") = false
        ∧ strings.Contains c (bytes "<opml") = true) ∧
    (detectFileType c = bytes "unknown"
      ↔ strings.HasPrefix (strings.TrimLeftSpace c) (bytes "@startmindmap") = false
        ∧ strings.Contains c (bytes "<opml") = false) ∧
    detectFileType (bytes "@startmindmap\n* a\n@endmindmap") = bytes "plantuml" ∧
    detectFileType (bytes "<opml version=\"2.0\">...") = bytes "opml" ∧
    detectFileType (bytes "hello") = bytes "unknown" ∧
    detectFileType (bytes "  @startmindmap\n<opml version=\"2.0\">") = bytes "plantuml" := by
  have hp : bytes "@startmindmap" = bytes "@startmindma" ++ [112] := by decide
  have hb : ∀ r ∈ strings.spaceRunes.map List.reverse, 112 ∉ r := by decide
  have e : strings.HasPrefix (strings.TrimSpace c) (bytes "@startmindmap")
      = strings.HasPrefix (strings.TrimLeftSpace c) (bytes "@startmindmap") := by
    rw [hp, Bool.eq_iff_iff]
    exact hasPrefix_trimSpace_iff c _ 112 hb
  have n1 : bytes "plantuml" ≠ bytes "opml" := by decide
  have n2 : bytes "plantuml" ≠ bytes "unknown" := by decide
  have n3 : bytes "opml" ≠ bytes "unknown" := by decide
  refine ⟨?_, ?_, ?_, by decide, by decide, by decide, by decide⟩
  all_goals
    unfold detectFileType
    rw [e]
    cases strings.HasPrefix (strings.TrimLeftSpace c) (bytes "@startmindmap") <;>
      cases strings.Contains c (bytes "<opml") <;>
      simp [n1, n2, n3, n1.symm, n2.symm, n3.symm]

/-- C9. Empty body: when every line of the input, once trimmed, is empty or
begins with `@start` or `@end`, `plantUMLToOPML` returns a document whose body
has no top-level outline. -/
theorem empty_body (s : GoString)
    (h : ∀ l ∈ strings.Split s 10, strings.TrimSpace l = [] ∨
      strings.HasPrefix (strings.TrimSpace l) (bytes "@start") = true ∨
      strings.HasPrefix (strings.TrimSpace l) (bytes "@end") = true) :
    ∃ doc, plantUMLToOPML s = some doc ∧ doc.Body.Outline = [] := by
  have hi : items s = [] := by
    unfold items contentLines
    rw [List.map_eq_nil_iff, List.filterMap_eq_nil_iff]
    intro l hl
    unfold contentLine
    simp only [h l hl, if_true]
  refine ⟨document (Outline.mk [] []), ?_, rfl⟩
  rw [plantUMLToOPML_eq, hi]
  rfl

/-- Witness of C9: the empty input and the input of the two delimiter lines. -/
theorem empty_body_witness :
    (∃ doc, plantUMLToOPML (bytes "") = some doc ∧ doc.Body.Outline = []) ∧
    (∃ doc, plantUMLToOPML (bytes "@startmindmap\n@endmindmap") = some doc
      ∧ doc.Body.Outline = []) :=
  ⟨empty_body (bytes "") (by decide),
   empty_body (bytes "@startmindmap\n@endmindmap") (by decide)⟩

/-- C10. Fixed metadata: every document `plantUMLToOPML` returns has the
version `2.0` and the title `Converted Mindmap`, whatever the input. -/
theorem fixed_metadata (s : GoString) (doc : OPML) (h : plantUMLToOPML s = some doc) :
    doc.Version = bytes "2.0" ∧ doc.Head.Title = bytes "Converted Mindmap" :=
  ⟨(plantUMLToOPML_some h).2.1, (plantUMLToOPML_some h).2.2.1⟩

/-- Witness of C10: the metadata of the document parsed from two marker lines. -/
theorem fixed_metadata_witness :
    plantUMLToOPML (bytes "@startmindmap\n* x\n** y\n@endmindmap")
      = some (document (.mk [] [.mk (bytes "x") [.mk (bytes "y") []]])) ∧
    (document (.mk [] [.mk (bytes "x") [.mk (bytes "y") []]])).Version = bytes "2.0" ∧
    (document (.mk [] [.mk (bytes "x") [.mk (bytes "y") []]])).Head.Title
      = bytes "Converted Mindmap" :=
  ⟨by decide,
   fixed_metadata (bytes "@startmindmap\n* x\n** y\n@endmindmap")
    (document (.mk [] [.mk (bytes "x") [.mk (bytes "y") []]])) (by decide)⟩

/-- C4 (as stated it fails). A document whose only label `a`, line end, `@end`
is trimmed of surrounding white space is written as the lines `* a` and
`@end`; the second is skipped as a delimiter line, so the text parses to the
label `a`, not to the document. -/
theorem roundtrip_tree_fails_on_line_break :
    strings.TrimSpace (bytes "a\n@end") = bytes "a\n@end" ∧
    plantUMLToOPML (opmlToPlantUML
        ⟨⟨[], []⟩, bytes "2.0", ⟨bytes "t"⟩, ⟨[.mk (bytes "a\n@end") []]⟩⟩)
      = some (document (.mk [] [.mk (bytes "a") []])) ∧
    (document (.mk [] [.mk (bytes "a") []])).Body
      ≠ (⟨[.mk (bytes "a\n@end") []]⟩ : Body) := by
  decide

/-- C4 (amended). Tree to text to tree: for every document whose labels are
trimmed of surrounding white space and hold no line end and no marker
character, `plantUMLToOPML (opmlToPlantUML d)` returns a document with the body
of `d`. -/
theorem roundtrip_tree (d : OPML)
    (h : ∀ l ∈ labels d.Body.Outline, Trimmed l ∧ 42 ∉ l ∧ 10 ∉ l) :
    ∃ r, plantUMLToOPML (opmlToPlantUML d) = some r ∧ r.Body = d.Body := by
  refine ⟨document (.mk [] d.Body.Outline), ?_, rfl⟩
  rw [opmlToPlantUML_eq]
  exact reparse_forest _ h

/-- Witness of C4 (amended): a document of three levels with an empty label. -/
theorem roundtrip_tree_witness :
    (∀ l ∈ labels [.mk (bytes "a b") [.mk (bytes "") [.mk (bytes "c") []]], .mk (bytes "d") []],
      Trimmed l ∧ 42 ∉ l ∧ 10 ∉ l) ∧
    ∃ r, plantUMLToOPML (opmlToPlantUML ⟨⟨[], []⟩, bytes "1.0", ⟨bytes "t"⟩,
        ⟨[.mk (bytes "a b") [.mk (bytes "") [.mk (bytes "c") []]], .mk (bytes "d") []]⟩⟩)
        = some r ∧
      r.Body = ⟨[.mk (bytes "a b") [.mk (bytes "") [.mk (bytes "c") []]], .mk (bytes "d") []]⟩ :=
  ⟨by unfold Trimmed; decide,
   roundtrip_tree ⟨⟨[], []⟩, bytes "1.0", ⟨bytes "t"⟩,
     ⟨[.mk (bytes "a b") [.mk (bytes "") [.mk (bytes "c") []]], .mk (bytes "d") []]⟩⟩
     (by unfold Trimmed; decide)⟩

/-- C5. Byte-identical text round trip without depth gaps: for the marker text
made of the line `@startmindmap`, one line of `k` markers, a blank and a label
per item and the line `@endmindmap` without line end, with labels that are
trimmed and hold no marker and no line end, and with marker counts that start
at 1, are at least 1 and grow by at most one from an item to the next,
`opmlToPlantUML (plantUMLToOPML doc) = doc`. -/
theorem roundtrip_text (its : List (Nat × GoString)) (hk : NoGap 0 (its.map Prod.fst))
    (hl : ∀ it ∈ its, Trimmed it.2 ∧ 42 ∉ it.2 ∧ 10 ∉ it.2) :
    (plantUMLToOPML (markerText its)).map opmlToPlantUML = some (markerText its) := by
  have hpos : ∀ it ∈ its, it.1 ≠ 0 := fun it hit =>
    noGap_pos _ 0 hk it.1 (List.mem_map.2 ⟨it, hit, rfl⟩)
  have hi : items (markerText its) = its :=
    items_markerText its (fun it hit => ⟨hpos it hit, hl it hit⟩)
  obtain ⟨doc, hdoc⟩ := plantUMLToOPML_returns (s := markerText its) (by rw [hi]; exact hpos)
  have hpre := (plantUMLToOPML_some hdoc).2.2.2
  rw [hi, depths_of_noGap _ 0 hk, zip_map_fst_snd] at hpre
  rw [hdoc, Option.map_some', opmlToPlantUML_eq, hpre]

/-- Witness of C5: a text of four items over three levels. -/
theorem roundtrip_text_witness :
    NoGap 0 ([(1, bytes "a"), (2, bytes "b c"), (3, bytes ""), (2, bytes "d")].map Prod.fst) ∧
    (plantUMLToOPML (markerText [(1, bytes "a"), (2, bytes "b c"), (3, bytes ""), (2, bytes "d")])).map
        opmlToPlantUML
      = some (markerText [(1, bytes "a"), (2, bytes "b c"), (3, bytes ""), (2, bytes "d")]) :=
  ⟨by simp [NoGap],
   roundtrip_text [(1, bytes "a"), (2, bytes "b c"), (3, bytes ""), (2, bytes "d")]
     (by simp [NoGap]) (by unfold Trimmed; decide)⟩

/-- C6. Re-serialising is a fixed point, depth gaps included: when every content
line of `x` has a marker and its markers are exactly its leading run,
`plantUMLToOPML x` returns a document `d`, the text `opmlToPlantUML d` parses to
a document `r` with the body of `d`, and `r` is written as the same text. -/
theorem reserialise_fixed_point (x : GoString)
    (h : ∀ line ∈ contentLines x, 42 ∈ line ∧ 42 ∉ line.dropWhile (fun b => b == 42)) :
    ∃ d r, plantUMLToOPML x = some d ∧ plantUMLToOPML (opmlToPlantUML d) = some r ∧
      r.Body = d.Body ∧ opmlToPlantUML r = opmlToPlantUML d := by
  have hpos : ∀ it ∈ items x, it.1 ≠ 0 := by
    intro it hit
    unfold items at hit
    obtain ⟨line, hline, rfl⟩ := List.mem_map.1 hit
    have := List.count_pos_iff.2 (h line hline).1
    simp only [levelOf, strings.Count]
    omega
  obtain ⟨d, hd⟩ := plantUMLToOPML_returns hpos
  have hpre := (plantUMLToOPML_some hd).2.2.2
  have hlab : ∀ l ∈ labels d.Body.Outline, Trimmed l ∧ 42 ∉ l ∧ 10 ∉ l := by
    intro l hl
    unfold labels at hl
    rw [hpre] at hl
    obtain ⟨p, hp, rfl⟩ := List.mem_map.1 hl
    have h2 : p.2 ∈ (items x).map Prod.snd := (List.of_mem_zip (a := p.1) (b := p.2) hp).2
    rw [items_snd] at h2
    obtain ⟨line, hline, hl2⟩ := List.mem_map.1 h2
    rw [← hl2]
    exact titleOf_clean hline (h line hline).2
  refine ⟨d, document (.mk [] d.Body.Outline), hd, ?_, rfl, ?_⟩
  · rw [opmlToPlantUML_eq]
    exact reparse_forest _ hlab
  · rw [opmlToPlantUML_eq, opmlToPlantUML_eq]
    rfl

/-- Witness of C6: a text with blank lines, indentation and two depth gaps. -/
theorem reserialise_fixed_point_witness :
    (∀ line ∈ contentLines (bytes "@startmindmap\n\n  *** a \n* b\n**** c d\n@endmindmap\n"),
      42 ∈ line ∧ 42 ∉ line.dropWhile (fun b => b == 42)) ∧
    ∃ d r, plantUMLToOPML (bytes "@startmindmap\n\n  *** a \n* b\n**** c d\n@endmindmap\n")
        = some d ∧
      plantUMLToOPML (opmlToPlantUML d) = some r ∧
      r.Body = d.Body ∧ opmlToPlantUML r = opmlToPlantUML d :=
  ⟨by decide,
   reserialise_fixed_point (bytes "@startmindmap\n\n  *** a \n* b\n**** c d\n@endmindmap\n")
     (by decide)⟩

/-- C7 (as stated it fails). The text written for the single node of label
`a`, line end, `b` has four lines, not the three of one node and two
delimiters. -/
theorem line_count_fails_on_line_break :
    (strings.Split (opmlToPlantUML
        ⟨⟨[], []⟩, bytes "2.0", ⟨bytes "t"⟩, ⟨[.mk (bytes "a\nb") []]⟩⟩) 10).length = 4 ∧
    sizeList [.mk (bytes "a\nb") []] + 2 = 3 := by
  decide

/-- C7 (amended). Output format of the text serializer: `opmlToPlantUML d` is
`@startmindmap` and a line end, then for every node of the body in pre-order
(depth 1 at top level, one more per level, children in stored order) `depth`
markers, one blank, the label as it is and a line end, then `@endmindmap`;
when no label holds a line end, the output has exactly (number of nodes + 2)
lines. -/
theorem serializer_format (d : OPML) :
    opmlToPlantUML d
      = bytes "@startmindmap\n" ++ ((preorderList d.Body.Outline 1).map nodeLine).flatten
          ++ bytes "@endmindmap"
    ∧ (preorderList d.Body.Outline 1).length = sizeList d.Body.Outline
    ∧ ((∀ l ∈ labels d.Body.Outline, 10 ∉ l) →
        (strings.Split (opmlToPlantUML d) 10).length = sizeList d.Body.Outline + 2) := by
  refine ⟨opmlToPlantUML_eq d, preorderList_length _ _, fun h => ?_⟩
  rw [opmlToPlantUML_eq, split_markerText _ (fun it hit => h it.2 (mem_labels_of_mem hit))]
  simp [preorderList_length]

/-- Witness of C7 (amended): a document of three nodes is written as five lines. -/
theorem serializer_format_witness :
    (∀ l ∈ labels [.mk (bytes "a") [.mk (bytes "b") []], .mk (bytes "c") []], 10 ∉ l) ∧
    (strings.Split (opmlToPlantUML ⟨⟨[], []⟩, bytes "2.0", ⟨bytes "t"⟩,
        ⟨[.mk (bytes "a") [.mk (bytes "b") []], .mk (bytes "c") []]⟩⟩) 10).length
      = sizeList [.mk (bytes "a") [.mk (bytes "b") []], .mk (bytes "c") []] + 2 :=
  ⟨by decide,
   (serializer_format ⟨⟨[], []⟩, bytes "2.0", ⟨bytes "t"⟩,
      ⟨[.mk (bytes "a") [.mk (bytes "b") []], .mk (bytes "c") []]⟩⟩).2.2 (by decide)⟩

/-- C11. Metadata is discarded on the way back to marker text: two documents
with the same body are written as the same text, whatever their version and
title. -/
theorem metadata_discarded (d1 d2 : OPML) (h : d1.Body = d2.Body) :
    opmlToPlantUML d1 = opmlToPlantUML d2 := by
  unfold opmlToPlantUML
  rw [h]

/-- Witness of C11: two documents that differ in name, version and title. -/
theorem metadata_discarded_witness :
    opmlToPlantUML ⟨⟨[], []⟩, bytes "2.0", ⟨bytes "Converted Mindmap"⟩,
        ⟨[.mk (bytes "a") [.mk (bytes "b") []]]⟩⟩
      = opmlToPlantUML ⟨⟨[], bytes "opml"⟩, bytes "1.0", ⟨bytes "My outline"⟩,
        ⟨[.mk (bytes "a") [.mk (bytes "b") []]]⟩⟩ :=
  metadata_discarded _ _ rfl

/-- C14. Document order is kept and no node is lost: when `plantUMLToOPML`
returns, the labels of the body in pre-order are the titles of the content
lines in input order, and the body has exactly one node per content line. -/
theorem preorder_is_input_order (s : GoString) (doc : OPML)
    (h : plantUMLToOPML s = some doc) :
    labels doc.Body.Outline = (contentLines s).map titleOf ∧
    sizeList doc.Body.Outline = (contentLines s).length := by
  have hpre := (plantUMLToOPML_some h).2.2.2
  have hlen : ((items s).map Prod.snd).length ≤ (depths 0 ((items s).map Prod.fst)).length := by
    simp [depths_length]
  constructor
  · unfold labels
    rw [hpre, List.map_snd_zip _ _ hlen, items_snd]
  · rw [← preorderList_length _ 1, hpre, List.length_zip, depths_length]
    simp [items]

/-- Witness of C14: four content lines among delimiter and blank lines. -/
theorem preorder_is_input_order_witness :
    plantUMLToOPML (bytes "@startmindmap\n* a\n\n*** b\n** c\n* d\n@endmindmap")
      = some (document (.mk [] [.mk (bytes "a") [.mk (bytes "b") [], .mk (bytes "c") []],
          .mk (bytes "d") []])) ∧
    labels (document (.mk [] [.mk (bytes "a") [.mk (bytes "b") [], .mk (bytes "c") []],
          .mk (bytes "d") []])).Body.Outline
      = (contentLines (bytes "@startmindmap\n* a\n\n*** b\n** c\n* d\n@endmindmap")).map titleOf ∧
    sizeList (document (.mk [] [.mk (bytes "a") [.mk (bytes "b") [], .mk (bytes "c") []],
          .mk (bytes "d") []])).Body.Outline
      = (contentLines (bytes "@startmindmap\n* a\n\n*** b\n** c\n* d\n@endmindmap")).length :=
  ⟨by decide,
   preorder_is_input_order (bytes "@startmindmap\n* a\n\n*** b\n** c\n* d\n@endmindmap")
     (document (.mk [] [.mk (bytes "a") [.mk (bytes "b") [], .mk (bytes "c") []],
          .mk (bytes "d") []])) (by decide)⟩

/-- C15. Layout insensitivity of the parser: the input and the input with
every line trimmed and every empty or delimiter line deleted give the same
result, both a panic or both the same document; the parser reads one from
the other, as shown on a text with indentation, carriage returns, blank
lines and delimiter lines in the middle. -/
theorem layout_insensitive (s : GoString) :
    plantUMLToOPML (normalize s) = plantUMLToOPML s ∧
    normalize (bytes "@startmindmap\r\n  * a \r\n\r\n@endmindmap\n\t** b\r\n") = bytes "* a\n** b" := by
  constructor
  · rw [plantUMLToOPML_eq, plantUMLToOPML_eq]
    unfold items
    rw [contentLines_normalize]
  · decide

/-- C16. Exact failure condition of the parser: `plantUMLToOPML s` panics if
and only if some line of `s`, once trimmed, is non-empty, does not begin with
`@start` or `@end` and holds no marker; on every other input it returns a
document. -/
theorem panics_iff_line_without_marker (s : GoString) :
    (plantUMLToOPML s = none ↔ ∃ line ∈ contentLines s, 42 ∉ line) ∧
    ((¬ ∃ line ∈ contentLines s, 42 ∉ line) → ∃ doc, plantUMLToOPML s = some doc) := by
  have hiff : plantUMLToOPML s = none ↔ ∃ line ∈ contentLines s, 42 ∉ line := by
    rw [plantUMLToOPML_eq, Option.map_eq_none', placeAll_eq_none_iff]
    unfold items
    constructor
    · rintro ⟨it, hit, h0⟩
      obtain ⟨line, hline, rfl⟩ := List.mem_map.1 hit
      exact ⟨line, hline, List.count_eq_zero.1 h0⟩
    · rintro ⟨line, hline, h0⟩
      exact ⟨_, List.mem_map.2 ⟨line, hline, rfl⟩, List.count_eq_zero.2 h0⟩
  refine ⟨hiff, fun hno => ?_⟩
  cases hp : plantUMLToOPML s with
  | none => exact absurd (hiff.1 hp) hno
  | some doc => exact ⟨doc, rfl⟩

/-- Witness of C16: every content line of the text has a marker, and the
parser returns. -/
theorem panics_iff_line_without_marker_witness :
    (¬ ∃ line ∈ contentLines (bytes "@startmindmap\n* a\n\n** b*\n@endmindmap"), 42 ∉ line) ∧
    ∃ doc, plantUMLToOPML (bytes "@startmindmap\n* a\n\n** b*\n@endmindmap") = some doc :=
  ⟨by decide,
   (panics_iff_line_without_marker (bytes "@startmindmap\n* a\n\n** b*\n@endmindmap")).2
     (by decide)⟩

/-- C17. Equal marker counts do not imply equal depth: in `* a`, `*** b`,
`*** c` the second and the third line both have three markers, and the text
parses to the single top-level item `a`, whose only child is `b`, whose only
child is `c`. -/
theorem equal_counts_nest :
    (contentLines (bytes "* a\n*** b\n*** c")).map levelOf = [1, 3, 3] ∧
    plantUMLToOPML (bytes "* a\n*** b\n*** c")
      = some (document (.mk [] [.mk (bytes "a") [.mk (bytes "b") [.mk (bytes "c") []]]])) := by
  decide

/-- C12. XML failures abort the conversion with no partial output: when
decoding the content of the input file fails with `err`, `loadOPML` returns
`err` with the zero-value document, whatever the decoder had filled in; and
when the content is classified as `opml`, `main` prints the error, leaves the
file system as it was and does not use `opmlToPlantUML`: the outcome is the
same for every function in its place. -/
theorem xml_failure_aborts (toPlantUML : OPML → GoString)
    (xmlEncode : OPML → GoString × Option Error) (xmlDecode : GoString → OPML × Option Error)
    (args : List GoString) (fs : FileSystem) (content : GoString) (filled : OPML) (err : Error)
    (hargs : 2 ≤ args.length) (hread : fs.read (args.getD 1 []) = Except.ok content)
    (hdec : xmlDecode content = (filled, some err)) :
    loadOPML xmlDecode fs (args.getD 1 []) = (zeroOPML, some err) ∧
    (detectFileType content = bytes "opml" →
      mainWith toPlantUML xmlEncode xmlDecode args fs
        = ⟨fs, [Println [bytes "Error loading OPML file:", err]], false⟩) := by
  have hload : loadOPML xmlDecode fs (args.getD 1 []) = (zeroOPML, some err) := by
    unfold loadOPML
    simp only [hread, hdec]
  refine ⟨hload, fun ho => ?_⟩
  have hp : bytes "opml" ≠ bytes "plantuml" := by decide
  unfold mainWith
  rw [if_neg (by omega)]
  simp only [hread, ho, hload]
  rw [if_neg hp, if_pos trivial]

/-- Witness of C12: a truncated XML file, and a decoder that stops with a
syntax error after it has filled in the version. -/
theorem xml_failure_aborts_witness :
    loadOPML (fun _ => (⟨⟨[], bytes "opml"⟩, bytes "2.0", ⟨[]⟩, ⟨[]⟩⟩, some (bytes "XML syntax error")))
        ⟨fun _ => Except.ok (bytes "<opml version=\"2.0\"><body>"), fun _ => none⟩
        ([bytes "converter", bytes "map.opml"].getD 1 [])
      = (zeroOPML, some (bytes "XML syntax error")) ∧
    (detectFileType (bytes "<opml version=\"2.0\"><body>") = bytes "opml" →
      mainWith opmlToPlantUML (fun _ => ([], none))
          (fun _ => (⟨⟨[], bytes "opml"⟩, bytes "2.0", ⟨[]⟩, ⟨[]⟩⟩, some (bytes "XML syntax error")))
          [bytes "converter", bytes "map.opml"]
          ⟨fun _ => Except.ok (bytes "<opml version=\"2.0\"><body>"), fun _ => none⟩
        = ⟨⟨fun _ => Except.ok (bytes "<opml version=\"2.0\"><body>"), fun _ => none⟩,
            [Println [bytes "Error loading OPML file:", bytes "XML syntax error"]], false⟩) :=
  xml_failure_aborts opmlToPlantUML (fun _ => ([], none))
    (fun _ => (⟨⟨[], bytes "opml"⟩, bytes "2.0", ⟨[]⟩, ⟨[]⟩⟩, some (bytes "XML syntax error")))
    [bytes "converter", bytes "map.opml"]
    ⟨fun _ => Except.ok (bytes "<opml version=\"2.0\"><body>"), fun _ => none⟩
    (bytes "<opml version=\"2.0\"><body>") ⟨⟨[], bytes "opml"⟩, bytes "2.0", ⟨[]⟩, ⟨[]⟩⟩
    (bytes "XML syntax error") (by decide) rfl rfl

/-- C18. A conversion never targets its own input file: for every input path
`p`, the output path `TrimSuffix(p, ".plantuml") + ".opml"` of the marker-text
branch and the output path `TrimSuffix(p, ".opml") + ".plantuml"` of the XML
branch differ from `p`, and a run of `main` leaves the content of its input
file as it was. -/
theorem output_is_not_input (p : GoString) (xmlEncode : OPML → GoString × Option Error)
    (xmlDecode : GoString → OPML × Option Error) (args : List GoString) (fs : FileSystem) :
    strings.TrimSuffix p (bytes ".plantuml") ++ bytes ".opml" ≠ p ∧
    strings.TrimSuffix p (bytes ".opml") ++ bytes ".plantuml" ≠ p ∧
    (main xmlEncode xmlDecode args fs).fs.read (args.getD 1 []) = fs.read (args.getD 1 []) :=
  ⟨trimSuffix_append_ne _ _ _ (by decide) (by decide),
   trimSuffix_append_ne _ _ _ (by decide) (by decide),
   mainWith_keeps_input _ _ _ _ _⟩

/-- C13. Tree to XML to tree with escaping, on the XML layer modelled from the
specification: for every document whose labels are XML-representable strings,
`saveOPML` writes the indented encoding without error and `loadOPML` reads the
file back as a document with the same body, label for label and child for
child at every depth; the characters `&`, `<`, `>` and `"` in a label are
escaped and read back as they were. -/
theorem xml_roundtrip (opml : OPML) (fs : FileSystem) (filename : GoString)
    (hcreate : fs.create filename = none)
    (hrep : ∀ l ∈ labels opml.Body.Outline, xml.Representable l) :
    (saveOPML xmlEncode fs filename opml).2 = none ∧
    ∃ r, loadOPML xmlDecode (saveOPML xmlEncode fs filename opml).1 filename = (r, none) ∧
      r.Body = opml.Body := by
  obtain ⟨r, hr, hbody⟩ := decode_encode opml hrep
  have hsave : saveOPML xmlEncode fs filename opml
      = (fs.write filename (xml.encodeOPML opml), none) := by
    unfold saveOPML xmlEncode
    rw [hcreate]
  rw [hsave]
  refine ⟨rfl, r, ?_, hbody⟩
  unfold loadOPML xmlDecode
  simp [FileSystem.write, hr]

set_option maxRecDepth 100000 in
/-- Witness of C13: a document with the label `a & b < c > "d"` over two
levels; the encoder writes it on indented lines with the label escaped, and
the file is read back with the same body. -/
theorem xml_roundtrip_witness :
    (∀ l ∈ labels [.mk (bytes "a & b < c > \"d\"") [.mk (bytes "e") []]], xml.Representable l) ∧
    xml.encodeOPML ⟨⟨[], []⟩, bytes "2.0", ⟨bytes "Converted Mindmap"⟩,
        ⟨[.mk (bytes "a & b < c > \"d\"") [.mk (bytes "e") []]]⟩⟩
      = bytes ("<opml version=\"2.0\">\n  <head>\n    <title>Converted Mindmap</title>\n  </head>\n"
          ++ "  <body>\n    <outline text=\"a &amp; b &lt; c &gt; &#34;d&#34;\">\n"
          ++ "      <outline text=\"e\"></outline>\n    </outline>\n  </body>\n</opml>") ∧
    (saveOPML xmlEncode ⟨fun _ => Except.error (bytes "no such file"), fun _ => none⟩
        (bytes "map.opml") ⟨⟨[], []⟩, bytes "2.0", ⟨bytes "Converted Mindmap"⟩,
        ⟨[.mk (bytes "a & b < c > \"d\"") [.mk (bytes "e") []]]⟩⟩).2 = none ∧
    ∃ r, loadOPML xmlDecode
        (saveOPML xmlEncode ⟨fun _ => Except.error (bytes "no such file"), fun _ => none⟩
          (bytes "map.opml") ⟨⟨[], []⟩, bytes "2.0", ⟨bytes "Converted Mindmap"⟩,
          ⟨[.mk (bytes "a & b < c > \"d\"") [.mk (bytes "e") []]]⟩⟩).1 (bytes "map.opml")
        = (r, none) ∧
      r.Body = ⟨[.mk (bytes "a & b < c > \"d\"") [.mk (bytes "e") []]]⟩ :=
  ⟨by unfold xml.Representable; decide, by decide,
   xml_roundtrip ⟨⟨[], []⟩, bytes "2.0", ⟨bytes "Converted Mindmap"⟩,
      ⟨[.mk (bytes "a & b < c > \"d\"") [.mk (bytes "e") []]]⟩⟩
    ⟨fun _ => Except.error (bytes "no such file"), fun _ => none⟩ (bytes "map.opml") rfl
    (by unfold xml.Representable; decide)⟩

end Converter
